import Mathlib

/-!
# hashmap-c: a chained hash table with pluggable hasher and comparator

A shallow embedding of `src/hashmap.c` and `src/hashmap.h`.

* A `void *` is the natural number `uintptr_t` gives it.
* A chain of `struct pair` nodes linked through `next` is the list of its nodes, head first; a
  null head is the empty list.  A pointer into a chain is the position of the node it points to.
* The bucket array is the list of its chains.
* `unsigned` values are naturals below `2 ^ 32`, `int` values are integers; every place where the
  C arithmetic wraps is written with an explicit `%`.
* `malloc` is a boolean argument saying whether the allocation succeeds.
-/

namespace Hashmap

/-! ## Handles and machine integers -/

/-- A value of type `void *`, read as `uintptr_t`. -/
abbrev ptr := Nat

/-- The strings the heap holds: the characters (as `char` values promoted to `int`) that precede
the terminating NUL of the string stored at an address. -/
abbrev memory := ptr → List Int

/-- Conversion of a 32-bit pattern to `int` (two's complement). -/
def to_int (x : Int) : Int :=
  let u := x % 2 ^ 32
  if u < 2 ^ 31 then u else u - 2 ^ 32

/-- Conversion of an `int` to `unsigned`. -/
def to_unsigned (x : Int) : Nat := (x % 2 ^ 32).toNat

/-- Macro `v2i(v)`: `((int)(uintptr_t)(v))`. -/
def v2i (v : ptr) : Int := to_int (v : Int)

/-- Macro `i2v(i)`: `((void*)(uintptr_t)(i))`, with a 64-bit `uintptr_t`. -/
def i2v (i : Int) : ptr := (i % 2 ^ 64).toNat

def EINVAL : Int := 22

def ENOMEM : Int := 12

def HMAP_OPT_FREE_KEY : Nat := 1 <<< 0

def HMAP_OPT_FREE_VALUE : Nat := 1 <<< 1

/-! ## Built-in strategies -/

/-- The loop of `hashmap_default_str_hash_func`: `k` is the rest of the string, `i` the index of
its first character, `exp` the next sampled index and `hash` the accumulator. -/
def str_hash_loop : List Int → Nat → Nat → Nat → Nat
  | [], _, _, hash => hash
  | c :: k, i, exp, hash =>
    if 0 = i ∨ i = exp then
      str_hash_loop k (i + 1) (if i ≠ 0 then (exp <<< 1) % 2 ^ 64 else exp)
        (to_unsigned (31 * (hash : Int) + c))
    else
      str_hash_loop k (i + 1) exp hash

/-- The string hasher, on the characters of the key. -/
def hashmap_default_str_hash_func (key : List Int) : Nat :=
  str_hash_loop key 0 1 0

/-- The C library's `strcmp`: zero on equal strings, otherwise the difference of the first two
bytes that differ, each read as `unsigned char`. -/
def strcmp : List Int → List Int → Int
  | [], [] => 0
  | [], b :: _ => 0 - b % 256
  | a :: _, [] => a % 256
  | a :: s, b :: t => if a % 256 = b % 256 then strcmp s t else a % 256 - b % 256

/-- The string comparator, on the characters of the two keys. -/
def hashmap_default_str_cmp_func (key1 key2 : List Int) : Int :=
  strcmp key1 key2

/-- The integer hasher: the key as `int`, returned as `unsigned`. -/
def hashmap_default_int_hash_func (key : ptr) : Nat :=
  let hash := v2i key
  to_unsigned hash

/-- The integer comparator: the difference of the two keys as `int`, wrapping. -/
def hashmap_default_int_cmp_func (key1 key2 : ptr) : Int :=
  to_int (v2i key1 - v2i key2)

/-- A non-null function pointer of type `hash_func_t`: one of the two built-in hashers, or any
other function. -/
inductive hash_fn where
  | default_str : hash_fn
  | default_int : hash_fn
  | custom (f : ptr → Nat) : hash_fn

/-- A non-null function pointer of type `cmp_func_t`. -/
inductive cmp_fn where
  | default_str : cmp_fn
  | default_int : cmp_fn
  | custom (f : ptr → ptr → Int) : cmp_fn

/-- A possibly null `hash_func_t`. -/
abbrev hash_func_t := Option hash_fn

/-- A possibly null `cmp_func_t`. -/
abbrev cmp_func_t := Option cmp_fn

/-- The call `hash_func(key)`; the result is an `unsigned`. -/
def hash_fn.call (mem : memory) : hash_fn → ptr → Nat
  | .default_str, key => hashmap_default_str_hash_func (mem key)
  | .default_int, key => hashmap_default_int_hash_func key
  | .custom f, key => f key % 2 ^ 32

/-- The call `cmp_func(key1, key2)`. -/
def cmp_fn.call (mem : memory) : cmp_fn → ptr → ptr → Int
  | .default_str, key1, key2 => hashmap_default_str_cmp_func (mem key1) (mem key2)
  | .default_int, key1, key2 => hashmap_default_int_cmp_func key1 key2
  | .custom f, key1, key2 => f key1 key2

/-! ## The table -/

/-- One node of a chain, `struct pair` without its `next` link. -/
structure pair where
  hash_code : Nat
  key : ptr
  value : ptr
  deriving DecidableEq, Repr

/-- The table, `struct hashmap`.  The strategy pointers are never null in a table. -/
structure hashmap where
  buckets : List (List pair)
  num_buckets : Int
  hash_func : hash_fn
  cmp_func : cmp_fn
  options : Nat

/-- A possibly null table handle. -/
abbrev hashmap_t := Option hashmap

/-- The shape `hashmap_new` establishes: a positive `int` number of buckets, and a bucket array
of exactly that many slots. -/
def hashmap.wf (hmap : hashmap) : Prop :=
  0 < hmap.num_buckets ∧ hmap.num_buckets < 2 ^ 31 ∧
    hmap.buckets.length = hmap.num_buckets.toNat

instance (hmap : hashmap) : Decidable hmap.wf := by
  unfold hashmap.wf; infer_instance

/-- The number of entries reachable from the bucket array. -/
def hashmap.count (hmap : hashmap) : Nat :=
  (hmap.buckets.map List.length).sum

/-! ## Construction -/

/-- The loop of `is_prime`: `r` iterations remain before `i` passes `k`; the result is the value
of `i` when the loop is left. -/
def is_prime_loop (n : Nat) : Nat → Nat → Nat
  | 0, i => i
  | r + 1, i => if n % i = 0 then i else is_prime_loop n r (i + 1)

/-- Trial division up to the square root, for `n > 0`; `(int)sqrt((double)n)` is the integer
square root. -/
def is_prime (n : Nat) : Int :=
  let k := Nat.sqrt n
  let i := is_prime_loop n (k + 1 - 2) 2
  if i > k then 1 else 0

/-- The loop of `get_max_prime`, counting `i` down to 1. -/
def get_max_prime_loop : Nat → Int
  | 0 => -1
  | i + 1 => if is_prime (i + 1) ≠ 0 then ((i + 1 : Nat) : Int) else get_max_prime_loop i

/-- The largest `i` with `0 < i ≤ n` that `is_prime` accepts, or `-1`. -/
def get_max_prime (n : Int) : Int :=
  get_max_prime_loop n.toNat

/-- Construction of a table; `malloc_ok` says whether the allocation of the table succeeds. -/
def hashmap_new (hash_func : hash_func_t) (cmp_func : cmp_func_t) (size : Int) (opts : Nat)
    (malloc_ok : Bool) : hashmap_t :=
  match hash_func, cmp_func with
  | none, _ => none
  | _, none => none
  | some .default_str, some .default_int => none
  | some .default_int, some .default_str => none
  | some hf, some cf =>
    let size := if size ≤ 2 then 137 else size
    let size := get_max_prime size
    if !malloc_ok then none
    else
      some
        { buckets := List.replicate size.toNat []
          num_buckets := size
          hash_func := hf
          cmp_func := cf
          options := opts }

/-! ## Operations -/

/-- The hash code of a key: the hasher's output, negated when it is below zero (as an `unsigned`
it never is). -/
def hashmap_hashcode (mem : memory) (hmap : hashmap_t) (key : ptr) : Nat :=
  match hmap with
  | none => 0
  | some h =>
    let hash_code := h.hash_func.call mem key
    if hash_code < 0 then to_unsigned (-(hash_code : Int)) else hash_code

/-- The walk of `find_pair` along a chain: `i` is the position of the first node of the rest of
the chain, `prev` the value `*prev` holds.  Returns the position of the node the walk stops at
(none: the null pointer) and the final `*prev`. -/
def find_pair_walk (cmp : ptr → ptr → Int) (key : ptr) :
    List pair → Nat → Option Nat → Option Nat × Option Nat
  | [], _, prev => (none, prev)
  | p :: rest, i, prev =>
    if cmp p.key key = 0 then (some i, prev)
    else find_pair_walk cmp key rest (i + 1) (some i)

/-- Locating a key in a non-null table: the position of the matching node in its chain, the value
written to `*prev`, and the value written to `*hash_code`. -/
def find_pair (mem : memory) (hmap : hashmap) (key : ptr) : Option Nat × Option Nat × Nat :=
  let _hash_code := hashmap_hashcode mem (some hmap) key % to_unsigned hmap.num_buckets
  let r := find_pair_walk (hmap.cmp_func.call mem) key (hmap.buckets.getD _hash_code []) 0 none
  (r.1, r.2, _hash_code)

/-- Insertion or overwrite; `malloc_ok` says whether the allocation of a node succeeds.  Returns
the status and the table afterwards. -/
def hashmap_set (mem : memory) (malloc_ok : Bool) (hmap : hashmap_t) (key value : ptr) :
    Int × hashmap_t :=
  match hmap with
  | none => (-EINVAL, none)
  | some h =>
    match find_pair mem h key with
    | (some i, _, hash_code) =>
      let chain := h.buckets.getD hash_code []
      (0, some { h with
        buckets := h.buckets.set hash_code (chain.modify (fun p => { p with value := value }) i) })
    | (none, prev, hash_code) =>
      if !malloc_ok then (-ENOMEM, some h)
      else
        let chain := h.buckets.getD hash_code []
        let pair : pair := { hash_code := hash_code, key := key, value := value }
        match prev with
        | some j => (0, some { h with buckets := h.buckets.set hash_code (chain.take (j + 1) ++ [pair]) })
        | none => (0, some { h with buckets := h.buckets.set hash_code [pair] })

/-- Lookup: the value of the matching node, or 0. -/
def hashmap_get (mem : memory) (hmap : hashmap_t) (key : ptr) : ptr :=
  match hmap with
  | none => 0
  | some h =>
    match find_pair mem h key with
    | (some i, _, hash_code) =>
      match (h.buckets.getD hash_code [])[i]? with
      | some p => p.value
      | none => 0
    | (none, _, _) => 0

/-- Removal.  The node is spliced out of its chain (lines 208 to 212), then the bucket head is
set to null (line 213).  Returns the status and the table afterwards. -/
def hashmap_remove (mem : memory) (hmap : hashmap_t) (key : ptr) : Int × hashmap_t :=
  match hmap with
  | none => (-EINVAL, none)
  | some h =>
    match find_pair mem h key with
    | (none, _, _) => (-1, some h)
    | (some i, prev, hash_code) =>
      let chain := h.buckets.getD hash_code []
      let spliced :=
        match prev with
        | some j => chain.take (j + 1) ++ chain.drop (i + 1)
        | none => chain.drop (i + 1)
      let buckets := h.buckets.set hash_code spliced
      let buckets := buckets.set hash_code []
      (0, some { h with buckets := buckets })

/-- Clearing: every chain is freed and every bucket head set to null, for `i` from 0 up to
`num_buckets - 1`. -/
def hashmap_clear (hmap : hashmap_t) : Int × hashmap_t :=
  match hmap with
  | none => (-EINVAL, none)
  | some h =>
    (0, some { h with
      buckets := (List.range h.num_buckets.toNat).foldl (fun b i => b.set i []) h.buckets })

/-! ## Vocabulary of the statements -/

/-- The bucket index `find_pair` computes for a key. -/
def hashmap.index (mem : memory) (hmap : hashmap) (key : ptr) : Nat :=
  hashmap_hashcode mem (some hmap) key % to_unsigned hmap.num_buckets

/-- The chain `find_pair` walks for a key. -/
def hashmap.chain (mem : memory) (hmap : hashmap) (key : ptr) : List pair :=
  hmap.buckets.getD (hmap.index mem key) []

/-- A table of three buckets with the integer strategies, holding key 4 in bucket 1. -/
def table3 : hashmap :=
  { buckets := [[], [{ hash_code := 1, key := 4, value := 9 }], []]
    num_buckets := 3
    hash_func := .default_int
    cmp_func := .default_int
    options := 0 }

/-- A heap without strings. -/
def no_strings : memory := fun _ => []

/-- The table `hashmap_new` builds for the integer strategies, size 7 and no options. -/
def table7 : hashmap :=
  { buckets := [[], [], [], [], [], [], []]
    num_buckets := 7
    hash_func := .default_int
    cmp_func := .default_int
    options := 0 }

/-- The lookup of a key in a chain: what `hashmap_get` returns, in terms of the chain alone. -/
def chain_get (cmp : ptr → ptr → Int) (key : ptr) (chain : List pair) : ptr :=
  match (find_pair_walk cmp key chain 0 none).1 with
  | some i =>
    match chain[i]? with
    | some p => p.value
    | none => 0
  | none => 0

/-- Applying `hashmap_set` to a sequence of pairs in order, the keys being integers passed as
`i2v(k)`; each pair comes with the outcome of the allocation its call may make.  Returns whether
every call returned 0, and the table afterwards. -/
def set_all (mem : memory) (hmap : hashmap_t) : List (Bool × Int × ptr) → Bool × hashmap_t
  | [] => (true, hmap)
  | (malloc_ok, k, v) :: rest =>
    let r := hashmap_set mem malloc_ok hmap (i2v k) v
    let s := set_all mem r.2 rest
    (decide (r.1 = 0) && s.1, s.2)

/-- The finite association map a sequence of pairs denotes: the value of the last pair whose key
is `k`, and 0 if no pair has key `k`. -/
def assoc_last (ops : List (Int × ptr)) (k : Int) : ptr :=
  match ops.reverse.find? (fun kv => decide (kv.1 = k)) with
  | some kv => kv.2
  | none => 0

/-- The table of the unit test after `set(1, 1)` and `set(8, 2)`: both keys are in bucket 1. -/
def table_1_8 : hashmap_t :=
  (hashmap_set no_strings true
    (hashmap_set no_strings true
      (hashmap_new (some .default_int) (some .default_int) 7 0 true) (i2v 1) (i2v 1)).2
    (i2v 8) (i2v 2)).2

/-- A table of seven buckets with the integer strategies, holding the keys 1 and 8, both in
bucket 1. -/
def table7_1_8 : hashmap :=
  { table7 with
    buckets := [[], [{ hash_code := 1, key := 1, value := 1 },
      { hash_code := 1, key := 8, value := 2 }], [], [], [], [], []] }

/-- An index the string hash samples, in the words of its description: 0, or a power of two. -/
def sampled_index (i : Nat) : Bool :=
  i == 0 || (List.range (i + 1)).any (fun e => i == 2 ^ e)

/-- The string hash as its description gives it: the left fold of `h := 31 * h + s[i]` modulo
`2 ^ 32`, from `h = 0`, over the sampled indices below the length of the string, in increasing
order. -/
def str_hash_fold (s : List Int) : Nat :=
  ((List.range s.length).filter sampled_index).foldl
    (fun h i => to_unsigned (31 * (h : Int) + s.getD i 0)) 0

/-- What the loop of the string hasher keeps true of `i` and `exp`: before the first character
`exp` is 1; afterwards `exp` is the least power of two that is at least `i`, as long as that is
below `2 ^ 64`; beyond `2 ^ 63` the shift has wrapped and `exp` is 0. -/
def exp_inv (i exp : Nat) : Prop :=
  (i = 0 ∧ exp = 1) ∨
    (0 < i ∧ ∃ e, e ≤ 63 ∧ exp = 2 ^ e ∧ i ≤ 2 ^ e ∧ (e = 0 ∨ 2 ^ (e - 1) < i)) ∨
    (exp = 0 ∧ 2 ^ 63 < i)

/-- One call on a table: `hashmap_set` with the outcome of the allocation it may make,
`hashmap_remove`, or `hashmap_clear`. -/
inductive table_op where
  | set (malloc_ok : Bool) (key value : ptr) : table_op
  | remove (key : ptr) : table_op
  | clear : table_op

/-- The table after one call. -/
def apply_op (mem : memory) (hmap : hashmap_t) : table_op → hashmap_t
  | .set malloc_ok key value => (hashmap_set mem malloc_ok hmap key value).2
  | .remove key => (hashmap_remove mem hmap key).2
  | .clear => (hashmap_clear hmap).2

/-- The table after a sequence of calls, made in order. -/
def run_ops (mem : memory) (hmap : hashmap_t) (ops : List table_op) : hashmap_t :=
  ops.foldl (apply_op mem) hmap

/-- The keys of all entries of a table, bucket after bucket. -/
def hashmap.keys (hmap : hashmap) : List ptr :=
  hmap.buckets.flatten.map pair.key

/-- Every entry sits in the bucket its key is sent to, and its `hash_code` is that index. -/
def hashmap.placed (mem : memory) (hmap : hashmap) : Prop :=
  ∀ i c, hmap.buckets[i]? = some c → ∀ e ∈ c, hmap.index mem e.key = i ∧ e.hash_code = i

/-- In every chain, the key of an entry does not compare equal to the key of a later one. -/
def hashmap.unique (mem : memory) (hmap : hashmap) : Prop :=
  ∀ c ∈ hmap.buckets,
    c.Pairwise (fun e1 e2 => hmap.cmp_func.call mem e1.key e2.key ≠ 0)

/-- A comparator that never returns 0, not even on a key and itself. -/
def never_equal : cmp_fn := .custom (fun _ _ => 1)

/-- The table `hashmap_new` builds for the integer hasher and `never_equal`, size 7. -/
def table7_never_equal : hashmap :=
  { table7 with cmp_func := never_equal }

/-- A sequence of calls on integer keys: 1 and 8 share bucket 1 of a table of size 7, 3 is
removed without being present, 1 is overwritten, 9 is set and removed. -/
def sample_ops : List table_op :=
  [.set true (i2v 1) 10, .set true (i2v 8) 20, .remove (i2v 3), .set false (i2v 1) 30,
    .set true (i2v 9) 40, .remove (i2v 9), .set true (i2v (-5)) 50]

/-- The table of size 7 after `set(1, 10)` and `set(1, 20)` under `never_equal`. -/
def table7_twice : hashmap :=
  { table7_never_equal with
    buckets := [[], [{ hash_code := 1, key := 1, value := 10 },
      { hash_code := 1, key := 1, value := 20 }], [], [], [], [], []] }

/-! ## The chain walk -/

theorem find_pair_walk_of_no_match (cmp : ptr → ptr → Int) (key : ptr) (chain : List pair)
    (h : ∀ p ∈ chain, cmp p.key key ≠ 0) (i : Nat) (prev : Option Nat) :
    find_pair_walk cmp key chain i prev =
      (none, if chain = [] then prev else some (i + chain.length - 1)) := by
  induction chain generalizing i prev with
  | nil => simp [find_pair_walk]
  | cons p rest ih =>
    have hp : cmp p.key key ≠ 0 := h p (List.mem_cons_self _ _)
    have hrest : ∀ q ∈ rest, cmp q.key key ≠ 0 := fun q hq => h q (List.mem_cons_of_mem _ hq)
    rw [find_pair_walk, if_neg hp, ih hrest]
    cases rest with
    | nil => simp
    | cons q rest2 =>
      simp only [List.length_cons, reduceCtorEq, if_false]
      congr 2
      omega

theorem find_pair_walk_of_match (cmp : ptr → ptr → Int) (key : ptr) (a : List pair) (p : pair)
    (b : List pair) (ha : ∀ q ∈ a, cmp q.key key ≠ 0) (hp : cmp p.key key = 0) (i : Nat)
    (prev : Option Nat) :
    find_pair_walk cmp key (a ++ p :: b) i prev =
      (some (i + a.length), if a = [] then prev else some (i + a.length - 1)) := by
  induction a generalizing i prev with
  | nil => simp [find_pair_walk, hp]
  | cons q rest ih =>
    have hq : cmp q.key key ≠ 0 := ha q (List.mem_cons_self _ _)
    have hrest : ∀ r ∈ rest, cmp r.key key ≠ 0 := fun r hr => ha r (List.mem_cons_of_mem _ hr)
    rw [List.cons_append, find_pair_walk, if_neg hq, ih hrest]
    cases rest with
    | nil => simp
    | cons r rest2 =>
      simp only [List.length_cons, reduceCtorEq, if_false]
      refine Prod.ext ?_ ?_
      · simp only [Option.some.injEq]; omega
      · simp only [Option.some.injEq]; omega

theorem chain_split (cmp : ptr → ptr → Int) (key : ptr) (chain : List pair) :
    (∀ p ∈ chain, cmp p.key key ≠ 0) ∨
      ∃ a p b, chain = a ++ p :: b ∧ (∀ q ∈ a, cmp q.key key ≠ 0) ∧ cmp p.key key = 0 := by
  induction chain with
  | nil => left; simp
  | cons p rest ih =>
    by_cases hp : cmp p.key key = 0
    · right; exact ⟨[], p, rest, rfl, by simp, hp⟩
    · rcases ih with h | ⟨a, q, b, rfl, ha, hq⟩
      · left
        intro r hr
        rcases List.mem_cons.mp hr with rfl | hr
        · exact hp
        · exact h r hr
      · right
        refine ⟨p :: a, q, b, rfl, ?_, hq⟩
        intro r hr
        rcases List.mem_cons.mp hr with rfl | hr
        · exact hp
        · exact ha r hr


/-! ## Locating a key -/

theorem to_unsigned_of_wf (t : hashmap) (hwf : t.wf) :
    to_unsigned t.num_buckets = t.num_buckets.toNat := by
  obtain ⟨h0, h1, _⟩ := hwf
  unfold to_unsigned
  rw [Int.emod_eq_of_lt (le_of_lt h0) (by omega)]

theorem index_lt (mem : memory) (t : hashmap) (hwf : t.wf) (key : ptr) :
    t.index mem key < t.buckets.length := by
  have hu := to_unsigned_of_wf t hwf
  obtain ⟨h0, _, h2⟩ := hwf
  unfold hashmap.index
  rw [hu, h2]
  exact Nat.mod_lt _ (by omega)

theorem find_pair_of_no_match (mem : memory) (t : hashmap) (key : ptr)
    (h : ∀ p ∈ t.chain mem key, t.cmp_func.call mem p.key key ≠ 0) :
    find_pair mem t key =
      (none, if t.chain mem key = [] then none else some ((t.chain mem key).length - 1),
        t.index mem key) := by
  unfold find_pair
  have := find_pair_walk_of_no_match (t.cmp_func.call mem) key (t.chain mem key) h 0 none
  simp only [hashmap.chain, hashmap.index] at this ⊢
  rw [this]
  simp

theorem find_pair_of_match (mem : memory) (t : hashmap) (key : ptr) (a : List pair) (p : pair)
    (b : List pair) (hc : t.chain mem key = a ++ p :: b)
    (ha : ∀ q ∈ a, t.cmp_func.call mem q.key key ≠ 0) (hp : t.cmp_func.call mem p.key key = 0) :
    find_pair mem t key =
      (some a.length, if a = [] then none else some (a.length - 1), t.index mem key) := by
  unfold find_pair
  have := find_pair_walk_of_match (t.cmp_func.call mem) key a p b ha hp 0 none
  simp only [hashmap.chain, hashmap.index] at hc this ⊢
  rw [hc, this]
  simp

theorem getD_set_self (l : List (List pair)) (i : Nat) (h : i < l.length) (x : List pair) :
    (l.set i x).getD i [] = x := by
  simp [List.getD_eq_getElem?_getD, List.getElem?_set, h]

theorem getD_set_other (l : List (List pair)) (i j : Nat) (h : i ≠ j) (x : List pair) :
    (l.set i x).getD j [] = l.getD j [] := by
  simp [List.getD_eq_getElem?_getD, List.getElem?_set, h]

theorem modify_append_cons (f : pair → pair) (a : List pair) (p : pair) (b : List pair) :
    List.modify f a.length (a ++ p :: b) = a ++ f p :: b := by
  induction a with
  | nil => simp
  | cons q r ih => simp [ih]

theorem hashmap_set_of_no_match (mem : memory) (t : hashmap) (key value : ptr)
    (h : ∀ p ∈ t.chain mem key, t.cmp_func.call mem p.key key ≠ 0) :
    hashmap_set mem true (some t) key value =
      (0, some { t with
        buckets := t.buckets.set (t.index mem key)
          (t.chain mem key ++ [{ hash_code := t.index mem key, key := key, value := value }]) }) := by
  unfold hashmap_set
  simp only [find_pair_of_no_match mem t key h]
  by_cases hc : t.chain mem key = []
  · simp [hc]
  · have hlen : (t.chain mem key).length - 1 + 1 = (t.chain mem key).length := by
      have := List.length_pos.mpr hc
      omega
    simp only [hc, if_false, Bool.not_true, Bool.false_eq_true]
    rw [hlen]
    simp [hashmap.chain]

theorem hashmap_set_of_no_match_fail (mem : memory) (t : hashmap) (key value : ptr)
    (h : ∀ p ∈ t.chain mem key, t.cmp_func.call mem p.key key ≠ 0) :
    hashmap_set mem false (some t) key value = (-ENOMEM, some t) := by
  unfold hashmap_set
  simp only [find_pair_of_no_match mem t key h]
  simp

theorem hashmap_set_of_match (mem : memory) (malloc_ok : Bool) (t : hashmap) (key value : ptr)
    (a : List pair) (p : pair) (b : List pair) (hc : t.chain mem key = a ++ p :: b)
    (ha : ∀ q ∈ a, t.cmp_func.call mem q.key key ≠ 0) (hp : t.cmp_func.call mem p.key key = 0) :
    hashmap_set mem malloc_ok (some t) key value =
      (0, some { t with
        buckets := t.buckets.set (t.index mem key) (a ++ { p with value := value } :: b) }) := by
  unfold hashmap_set
  simp only [find_pair_of_match mem t key a p b hc ha hp]
  have : t.buckets.getD (t.index mem key) [] = a ++ p :: b := hc
  rw [this]
  rw [modify_append_cons]


theorem getElem?_append_cons_length (a : List pair) (p : pair) (b : List pair) :
    (a ++ p :: b)[a.length]? = some p := by
  rw [List.getElem?_append_right (le_refl _)]
  simp

theorem hashmap_get_of_no_match (mem : memory) (t : hashmap) (key : ptr)
    (h : ∀ p ∈ t.chain mem key, t.cmp_func.call mem p.key key ≠ 0) :
    hashmap_get mem (some t) key = 0 := by
  unfold hashmap_get
  simp only [find_pair_of_no_match mem t key h]

theorem hashmap_get_of_match (mem : memory) (t : hashmap) (key : ptr) (a : List pair) (p : pair)
    (b : List pair) (hc : t.chain mem key = a ++ p :: b)
    (ha : ∀ q ∈ a, t.cmp_func.call mem q.key key ≠ 0) (hp : t.cmp_func.call mem p.key key = 0) :
    hashmap_get mem (some t) key = p.value := by
  unfold hashmap_get
  simp only [find_pair_of_match mem t key a p b hc ha hp]
  have : t.buckets.getD (t.index mem key) [] = a ++ p :: b := hc
  rw [this, getElem?_append_cons_length]

theorem hashmap_remove_of_no_match (mem : memory) (t : hashmap) (key : ptr)
    (h : ∀ p ∈ t.chain mem key, t.cmp_func.call mem p.key key ≠ 0) :
    hashmap_remove mem (some t) key = (-1, some t) := by
  unfold hashmap_remove
  simp only [find_pair_of_no_match mem t key h]

theorem hashmap_remove_of_match (mem : memory) (t : hashmap) (key : ptr) (a : List pair)
    (p : pair) (b : List pair) (hc : t.chain mem key = a ++ p :: b)
    (ha : ∀ q ∈ a, t.cmp_func.call mem q.key key ≠ 0) (hp : t.cmp_func.call mem p.key key = 0) :
    hashmap_remove mem (some t) key =
      (0, some { t with buckets := t.buckets.set (t.index mem key) [] }) := by
  unfold hashmap_remove
  simp only [find_pair_of_match mem t key a p b hc ha hp]
  simp [List.set_set]

/-- After a change of the bucket array alone, a key is still sent to the same bucket. -/
theorem index_with_buckets (mem : memory) (t : hashmap) (bs : List (List pair)) (key : ptr) :
    hashmap.index mem { t with buckets := bs } key = t.index mem key := rfl

theorem chain_with_buckets_self (mem : memory) (t : hashmap) (hwf : t.wf) (key : ptr)
    (c : List pair) :
    hashmap.chain mem { t with buckets := t.buckets.set (t.index mem key) c } key = c := by
  unfold hashmap.chain
  rw [index_with_buckets]
  exact getD_set_self _ _ (index_lt mem t hwf key) c

theorem find_pair_none_iff (mem : memory) (t : hashmap) (key : ptr) :
    (find_pair mem t key).1 = none ↔
      ∀ p ∈ t.chain mem key, t.cmp_func.call mem p.key key ≠ 0 := by
  constructor
  · intro h
    rcases chain_split (t.cmp_func.call mem) key (t.chain mem key) with hno | ⟨a, p, b, hc, ha, hp⟩
    · exact hno
    · rw [find_pair_of_match mem t key a p b hc ha hp] at h
      simp at h
  · intro h
    rw [find_pair_of_no_match mem t key h]


/-! ## Set, get, remove on one key -/

/-- C1: on a non-null table in any well-shaped state, with a comparator that returns 0 on
`(k, k)`, a `hashmap_set(t, k, v)` that returns 0 is followed by `hashmap_get(t, k) = v`, whether
`k` was already present or new. -/
theorem hashmap_get_after_set (mem : memory) (malloc_ok : Bool) (t : hashmap) (k v : ptr)
    (hwf : t.wf) (hcmp : t.cmp_func.call mem k k = 0)
    (hret : (hashmap_set mem malloc_ok (some t) k v).1 = 0) :
    hashmap_get mem (hashmap_set mem malloc_ok (some t) k v).2 k = v := by
  rcases chain_split (t.cmp_func.call mem) k (t.chain mem k) with hno | ⟨a, p, b, hc, ha, hp⟩
  · cases malloc_ok with
    | false =>
      rw [hashmap_set_of_no_match_fail mem t k v hno] at hret
      simp [ENOMEM] at hret
    | true =>
      rw [hashmap_set_of_no_match mem t k v hno]
      exact hashmap_get_of_match mem _ k (t.chain mem k)
        { hash_code := t.index mem k, key := k, value := v } []
        (chain_with_buckets_self mem t hwf k _) hno hcmp
  · rw [hashmap_set_of_match mem malloc_ok t k v a p b hc ha hp]
    exact hashmap_get_of_match mem _ k a { p with value := v } b
      (chain_with_buckets_self mem t hwf k _) ha hp

theorem hashmap_get_after_set_witness :
    table3.wf ∧ (hashmap_set no_strings true (some table3) 7 5).1 = 0 ∧
      hashmap_get no_strings (hashmap_set no_strings true (some table3) 7 5).2 7 = 5 :=
  ⟨by decide, by decide,
    hashmap_get_after_set no_strings true table3 7 5 (by decide) (by decide) (by decide)⟩

/-- C4: removing a present key returns 0, and a lookup of that key afterwards returns 0. -/
theorem hashmap_remove_present (mem : memory) (t : hashmap) (k : ptr) (hwf : t.wf)
    (hpres : (find_pair mem t k).1 ≠ none) :
    (hashmap_remove mem (some t) k).1 = 0 ∧
      hashmap_get mem (hashmap_remove mem (some t) k).2 k = 0 := by
  rcases chain_split (t.cmp_func.call mem) k (t.chain mem k) with hno | ⟨a, p, b, hc, ha, hp⟩
  · exact absurd ((find_pair_none_iff mem t k).mpr hno) hpres
  · rw [hashmap_remove_of_match mem t k a p b hc ha hp]
    refine ⟨rfl, ?_⟩
    apply hashmap_get_of_no_match
    rw [chain_with_buckets_self mem t hwf k]
    simp

theorem hashmap_remove_present_witness :
    table3.wf ∧ (find_pair no_strings table3 4).1 ≠ none ∧
      (hashmap_remove no_strings (some table3) 4).1 = 0 ∧
      hashmap_get no_strings (hashmap_remove no_strings (some table3) 4).2 4 = 0 :=
  ⟨by decide, by decide, hashmap_remove_present no_strings table3 4 (by decide) (by decide)⟩

/-- C6: removing a key that is not present returns -1 and leaves the table as it was: the same
chains with the same entries in the same order, hence the same number of entries. -/
theorem hashmap_remove_absent (mem : memory) (t : hashmap) (k : ptr)
    (habs : (find_pair mem t k).1 = none) :
    (hashmap_remove mem (some t) k).1 = -1 ∧ (hashmap_remove mem (some t) k).2 = some t ∧
      ∀ t1, (hashmap_remove mem (some t) k).2 = some t1 →
        t1.buckets = t.buckets ∧ t1.count = t.count := by
  rw [hashmap_remove_of_no_match mem t k ((find_pair_none_iff mem t k).mp habs)]
  refine ⟨rfl, rfl, ?_⟩
  intro t1 h1
  simp only [Option.some.injEq] at h1
  subst h1
  exact ⟨rfl, rfl⟩

theorem hashmap_remove_absent_witness :
    (find_pair no_strings table3 7).1 = none ∧
      (hashmap_remove no_strings (some table3) 7).1 = -1 ∧
      (hashmap_remove no_strings (some table3) 7).2 = some table3 :=
  ⟨by decide, (hashmap_remove_absent no_strings table3 7 (by decide)).1,
    (hashmap_remove_absent no_strings table3 7 (by decide)).2.1⟩

/-! ## Overwriting -/

theorem find_pair_some (mem : memory) (t : hashmap) (k : ptr) (i : Nat)
    (h : (find_pair mem t k).1 = some i) :
    ∃ a p b, t.chain mem k = a ++ p :: b ∧ a.length = i ∧
      (∀ q ∈ a, t.cmp_func.call mem q.key k ≠ 0) ∧ t.cmp_func.call mem p.key k = 0 := by
  rcases chain_split (t.cmp_func.call mem) k (t.chain mem k) with hno | ⟨a, p, b, hc, ha, hp⟩
  · rw [(find_pair_none_iff mem t k).mpr hno] at h
    simp at h
  · refine ⟨a, p, b, hc, ?_, ha, hp⟩
    rw [find_pair_of_match mem t k a p b hc ha hp] at h
    simpa using h

theorem index_lt_of_chain (mem : memory) (t : hashmap) (k : ptr) (h : t.chain mem k ≠ []) :
    t.index mem k < t.buckets.length := by
  by_contra hlt
  apply h
  unfold hashmap.chain
  rw [List.getD_eq_getElem?_getD, List.getElem?_eq_none (by omega)]
  rfl

/-- C7: a `hashmap_set` on a key that is already present returns 0 and changes only the value of
that key's entry: the bucket array keeps its length, every chain keeps its sequence of keys and
hash codes (so its length and the entry's position), every other entry is as before, and the
entry of the key now holds the new value. -/
theorem hashmap_set_present (mem : memory) (malloc_ok : Bool) (t : hashmap) (k v : ptr) (i : Nat)
    (hpres : (find_pair mem t k).1 = some i) :
    ∃ t1, hashmap_set mem malloc_ok (some t) k v = (0, some t1) ∧
      t1.num_buckets = t.num_buckets ∧ t1.options = t.options ∧
      t1.hash_func = t.hash_func ∧ t1.cmp_func = t.cmp_func ∧
      t1.buckets.length = t.buckets.length ∧
      (∀ b, (t1.buckets.getD b []).map (fun p => (p.key, p.hash_code)) =
        (t.buckets.getD b []).map (fun p => (p.key, p.hash_code))) ∧
      (∀ b j, ¬(b = t.index mem k ∧ j = i) →
        (t1.buckets.getD b [])[j]? = (t.buckets.getD b [])[j]?) ∧
      ((t1.buckets.getD (t.index mem k) [])[i]?).map pair.value = some v := by
  obtain ⟨a, p, b, hc, hlen, ha, hp⟩ := find_pair_some mem t k i hpres
  have hidx : t.index mem k < t.buckets.length :=
    index_lt_of_chain mem t k (by rw [hc]; simp)
  have hc1 : t.buckets.getD (t.index mem k) [] = a ++ p :: b := hc
  refine ⟨_, hashmap_set_of_match mem malloc_ok t k v a p b hc ha hp, rfl, rfl, rfl, rfl, ?_, ?_, ?_,
    ?_⟩
  · simp
  · intro c
    by_cases hcb : t.index mem k = c
    · subst hcb
      simp only []
      rw [getD_set_self _ _ hidx, hc1]
      simp
    · simp only []
      rw [getD_set_other _ _ _ hcb]
  · intro c j hne
    by_cases hcb : t.index mem k = c
    · subst hcb
      have hj : j ≠ a.length := by
        intro h
        exact hne ⟨rfl, h.trans hlen⟩
      simp only []
      rw [getD_set_self _ _ hidx, hc1]
      rcases Nat.lt_or_gt_of_ne hj with hlt | hgt
      · rw [List.getElem?_append_left hlt, List.getElem?_append_left hlt]
      · rw [List.getElem?_append_right (le_of_lt hgt), List.getElem?_append_right (le_of_lt hgt)]
        obtain ⟨m, hm⟩ : ∃ m, j - a.length = m + 1 := ⟨j - a.length - 1, by omega⟩
        rw [hm]
        simp
    · simp only []
      rw [getD_set_other _ _ _ hcb]
  · simp only []
    rw [getD_set_self _ _ hidx, ← hlen, getElem?_append_cons_length]
    rfl

theorem hashmap_set_present_witness :
    (find_pair no_strings table3 4).1 = some 0 ∧
      ∃ t1, hashmap_set no_strings false (some table3) 4 5 = (0, some t1) ∧
        t1.num_buckets = table3.num_buckets ∧ t1.options = table3.options ∧
        t1.hash_func = table3.hash_func ∧ t1.cmp_func = table3.cmp_func ∧
        t1.buckets.length = table3.buckets.length ∧
        (∀ b, (t1.buckets.getD b []).map (fun p => (p.key, p.hash_code)) =
          (table3.buckets.getD b []).map (fun p => (p.key, p.hash_code))) ∧
        (∀ b j, ¬(b = table3.index no_strings 4 ∧ j = 0) →
          (t1.buckets.getD b [])[j]? = (table3.buckets.getD b [])[j]?) ∧
        ((t1.buckets.getD (table3.index no_strings 4) [])[0]?).map pair.value = some 5 :=
  ⟨by decide, hashmap_set_present no_strings false table3 4 5 0 (by decide)⟩

/-! ## Clearing -/

theorem clear_loop (n : Nat) (l : List (List pair)) (hn : n ≤ l.length) :
    (List.range n).foldl (fun b i => b.set i []) l = List.replicate n [] ++ l.drop n := by
  induction n with
  | zero => simp
  | succ m ih =>
    have hm : m < l.length := hn
    rw [List.range_succ, List.foldl_append, ih (le_of_lt hm)]
    simp only [List.foldl_cons, List.foldl_nil]
    rw [List.set_append_right _ _ (by simp), List.length_replicate, Nat.sub_self,
      List.drop_eq_getElem_cons hm, List.set_cons_zero, List.replicate_succ',
      List.append_assoc]
    rfl

theorem hashmap_clear_eq (t : hashmap) (hwf : t.wf) :
    hashmap_clear (some t) =
      (0, some { t with buckets := List.replicate t.num_buckets.toNat [] }) := by
  obtain ⟨_, _, hlen⟩ := hwf
  unfold hashmap_clear
  simp only []
  rw [clear_loop _ _ (le_of_eq hlen.symm), ← hlen]
  simp

/-- C8: `hashmap_clear` on a non-null table returns 0, leaves each of the `num_buckets` bucket
heads empty, makes `hashmap_get` return 0 for every key, and keeps `num_buckets`, the hasher, the
comparator and the options. -/
theorem hashmap_clear_empties (t : hashmap) (hwf : t.wf) :
    ∃ t1, hashmap_clear (some t) = (0, some t1) ∧
      t1.buckets.length = t.num_buckets.toNat ∧
      (∀ i, i < t.num_buckets.toNat → t1.buckets[i]? = some []) ∧
      (∀ mem k, hashmap_get mem (some t1) k = 0) ∧
      t1.num_buckets = t.num_buckets ∧ t1.hash_func = t.hash_func ∧
      t1.cmp_func = t.cmp_func ∧ t1.options = t.options := by
  refine ⟨_, hashmap_clear_eq t hwf, by simp, ?_, ?_, rfl, rfl, rfl, rfl⟩
  · intro i hi
    simp [hi]
  · intro mem k
    apply hashmap_get_of_no_match
    intro p hp
    exfalso
    unfold hashmap.chain at hp
    rw [List.getD_eq_getElem?_getD] at hp
    simp only [List.getElem?_replicate] at hp
    split at hp <;> simp at hp

theorem hashmap_clear_empties_witness :
    table3.wf ∧ table3.count = 1 ∧
      ∃ t1, hashmap_clear (some table3) = (0, some t1) ∧
        t1.buckets.length = table3.num_buckets.toNat ∧
        (∀ i, i < table3.num_buckets.toNat → t1.buckets[i]? = some []) ∧
        (∀ mem k, hashmap_get mem (some t1) k = 0) ∧
        t1.num_buckets = table3.num_buckets ∧ t1.hash_func = table3.hash_func ∧
        t1.cmp_func = table3.cmp_func ∧ t1.options = table3.options :=
  ⟨by decide, by decide, hashmap_clear_empties table3 (by decide)⟩


/-! ## Construction -/

theorem is_prime_loop_spec (n r i : Nat) :
    i ≤ is_prime_loop n r i ∧ is_prime_loop n r i ≤ i + r ∧
      (∀ m, i ≤ m → m < is_prime_loop n r i → n % m ≠ 0) ∧
      (is_prime_loop n r i < i + r → n % is_prime_loop n r i = 0) := by
  induction r generalizing i with
  | zero =>
    refine ⟨le_refl _, le_refl _, ?_, ?_⟩
    · intro m h1 h2
      simp only [is_prime_loop] at h2
      omega
    · intro h
      simp only [is_prime_loop] at h
      omega
  | succ r ih =>
    by_cases hd : n % i = 0
    · simp only [is_prime_loop, hd, if_true]
      refine ⟨le_refl _, by omega, ?_, fun _ => trivial⟩
      intro m h1 h2
      omega
    · simp only [is_prime_loop, hd, if_false]
      obtain ⟨h1, h2, h3, h4⟩ := ih (i + 1)
      refine ⟨by omega, by omega, ?_, ?_⟩
      · intro m hm1 hm2
        rcases Nat.eq_or_lt_of_le hm1 with rfl | hlt
        · exact hd
        · exact h3 m hlt hm2
      · intro h
        exact h4 (by omega)

theorem is_prime_iff (n : Nat) :
    is_prime n ≠ 0 ↔ ∀ m, 2 ≤ m → m ≤ Nat.sqrt n → ¬m ∣ n := by
  obtain ⟨h1, h2, h3, h4⟩ := is_prime_loop_spec n (Nat.sqrt n + 1 - 2) 2
  unfold is_prime
  simp only []
  constructor
  · intro h m hm1 hm2 hdvd
    have hgt : is_prime_loop n (Nat.sqrt n + 1 - 2) 2 > Nat.sqrt n := by
      by_contra hle
      rw [if_neg hle] at h
      exact h rfl
    exact h3 m hm1 (by omega) (Nat.mod_eq_zero_of_dvd hdvd)
  · intro h
    have hgt : is_prime_loop n (Nat.sqrt n + 1 - 2) 2 > Nat.sqrt n := by
      by_contra hle
      have hz := h4 (by omega)
      exact h _ h1 (by omega) (Nat.dvd_of_mod_eq_zero hz)
    rw [if_pos hgt]
    decide

theorem is_prime_iff_prime (n : Nat) (hn : 2 ≤ n) : is_prime n ≠ 0 ↔ Nat.Prime n := by
  rw [is_prime_iff, Nat.prime_def_le_sqrt]
  simp [hn]

theorem get_max_prime_loop_spec (n : Nat) (hn : 2 ≤ n) :
    ∃ p : Nat, get_max_prime_loop n = (p : Int) ∧ Nat.Prime p ∧ p ≤ n ∧
      ∀ q, Nat.Prime q → q ≤ n → q ≤ p := by
  induction n with
  | zero => omega
  | succ m ih =>
    by_cases hp : is_prime (m + 1) ≠ 0
    · refine ⟨m + 1, ?_, (is_prime_iff_prime _ hn).mp hp, le_refl _, fun q _ hq => hq⟩
      rw [get_max_prime_loop, if_pos hp]
    · have hnp : ¬Nat.Prime (m + 1) := fun h => hp ((is_prime_iff_prime _ hn).mpr h)
      have hm : 2 ≤ m := by
        rcases Nat.lt_or_ge m 2 with hlt | hge
        · exfalso
          have : m + 1 = 2 := by omega
          rw [this] at hnp
          exact hnp Nat.prime_two
        · exact hge
      obtain ⟨p, h1, h2, h3, h4⟩ := ih hm
      refine ⟨p, ?_, h2, by omega, ?_⟩
      · rw [get_max_prime_loop, if_neg hp]
        exact h1
      · intro q hq hle
        rcases Nat.eq_or_lt_of_le hle with rfl | hlt
        · exact absurd hq hnp
        · exact h4 q hq (by omega)


theorem hashmap_new_some (hash_func : hash_func_t) (cmp_func : cmp_func_t) (size : Int)
    (opts : Nat) (malloc_ok : Bool) (t : hashmap)
    (h : hashmap_new hash_func cmp_func size opts malloc_ok = some t) :
    t.num_buckets = get_max_prime (if size ≤ 2 then 137 else size) ∧
      t.buckets = List.replicate t.num_buckets.toNat [] ∧
      some t.hash_func = hash_func ∧ some t.cmp_func = cmp_func ∧ t.options = opts := by
  unfold hashmap_new at h
  cases malloc_ok <;> rcases hash_func with _ | hf <;> rcases cmp_func with _ | cf <;>
    try (simp at h)
  all_goals cases hf <;> cases cf <;> simp at h <;> subst h <;> simp

theorem get_max_prime_spec (s : Int) (hs : 2 < s) :
    ∃ p : Nat, get_max_prime s = (p : Int) ∧ Nat.Prime p ∧ (p : Int) ≤ s ∧
      ∀ q : Nat, Nat.Prime q → (q : Int) ≤ s → q ≤ p := by
  obtain ⟨p, h1, h2, h3, h4⟩ := get_max_prime_loop_spec s.toNat (by omega)
  refine ⟨p, h1, h2, by omega, ?_⟩
  intro q hq hle
  exact h4 q hq (by omega)

/-- C9: a successful `hashmap_new` gives `num_buckets` the largest prime `p ≤ s`, where `s` is
the requested size if that is above 2 and 137 otherwise: `p` is prime, `p ≤ s`, no prime lies
strictly between `p` and `s + 1` (size 7 gives 7, size 10 gives 7, a size of at most 2 gives 137),
and the bucket array has `p` heads, all empty. -/
theorem hashmap_new_num_buckets (hash_func : hash_func_t) (cmp_func : cmp_func_t) (size : Int)
    (opts : Nat) (malloc_ok : Bool) (t : hashmap)
    (h : hashmap_new hash_func cmp_func size opts malloc_ok = some t) :
    ∃ p : Nat, t.num_buckets = (p : Int) ∧ Nat.Prime p ∧
      (p : Int) ≤ (if 2 < size then size else 137) ∧
      (∀ q : Nat, Nat.Prime q → p < q → ¬((q : Int) < (if 2 < size then size else 137) + 1)) ∧
      (size = 7 → p = 7) ∧ (size = 10 → p = 7) ∧ (size ≤ 2 → p = 137) ∧
      t.buckets.length = p ∧ ∀ c ∈ t.buckets, c = [] := by
  obtain ⟨hnb, hb, _, _, _⟩ := hashmap_new_some hash_func cmp_func size opts malloc_ok t h
  have hs : (if size ≤ 2 then (137 : Int) else size) = (if 2 < size then size else 137) := by
    split <;> split <;> omega
  rw [hs] at hnb
  have h2 : (2 : Int) < (if 2 < size then size else 137) := by split <;> omega
  obtain ⟨p, hp1, hp2, hp3, hp4⟩ := get_max_prime_spec _ h2
  have hnp : t.num_buckets = (p : Int) := hnb.trans hp1
  refine ⟨p, hnp, hp2, hp3, ?_, ?_, ?_, ?_, ?_, ?_⟩
  · intro q hq hlt hle
    have := hp4 q hq (by omega)
    omega
  · intro h7
    subst h7
    have h7 : 7 ≤ p := hp4 7 (by norm_num) (by norm_num)
    have : (p : Int) ≤ 7 := by simpa using hp3
    omega
  · intro h10
    subst h10
    have h7 : 7 ≤ p := hp4 7 (by norm_num) (by norm_num)
    have hle : (p : Int) ≤ 10 := by simpa using hp3
    have hle2 : p ≤ 10 := by omega
    interval_cases p
    · rfl
    · exact absurd hp2 (by norm_num)
    · exact absurd hp2 (by norm_num)
    · exact absurd hp2 (by norm_num)
  · intro hle
    have h137 : 137 ≤ p := hp4 137 (by norm_num) (by rw [if_neg (by omega)]; norm_num)
    have : (p : Int) ≤ 137 := by rw [if_neg (by omega)] at hp3; exact hp3
    omega
  · rw [hb, hnp]
    simp
  · intro c hc
    rw [hb] at hc
    exact (List.mem_replicate.mp hc).2

/-- C10: with a successful allocation, `hashmap_new` returns the null handle exactly when the
hasher is null, or the comparator is null, or the pair is the built-in string hasher with the
built-in integer comparator, or the built-in integer hasher with the built-in string comparator;
every other pair is accepted, for every size and every options value. -/
theorem hashmap_new_null_iff (hash_func : hash_func_t) (cmp_func : cmp_func_t) (size : Int)
    (opts : Nat) :
    hashmap_new hash_func cmp_func size opts true = none ↔
      hash_func = none ∨ cmp_func = none ∨
        (hash_func = some hash_fn.default_str ∧ cmp_func = some cmp_fn.default_int) ∨
        (hash_func = some hash_fn.default_int ∧ cmp_func = some cmp_fn.default_str) := by
  unfold hashmap_new
  rcases hash_func with _ | hf <;> rcases cmp_func with _ | cf <;> try (simp)
  cases hf <;> cases cf <;> simp


theorem sqrt_seven : Nat.sqrt 7 = 2 := by
  symm
  rw [Nat.eq_sqrt]
  decide

theorem get_max_prime_seven : get_max_prime 7 = 7 := by
  have h : is_prime 7 ≠ 0 := by
    unfold is_prime
    rw [sqrt_seven]
    decide
  show get_max_prime_loop 7 = 7
  rw [get_max_prime_loop, if_pos h]
  rfl

theorem hashmap_new_seven :
    hashmap_new (some .default_int) (some .default_int) 7 0 true = some table7 := by
  have h : (if (7 : Int) ≤ 2 then (137 : Int) else 7) = 7 := by decide
  unfold hashmap_new
  simp only [Bool.not_true, Bool.false_eq_true, if_false]
  rw [h, get_max_prime_seven]
  rfl

theorem hashmap_new_num_buckets_witness :
    hashmap_new (some .default_int) (some .default_int) 7 0 true = some table7 ∧
      ∃ p : Nat, table7.num_buckets = (p : Int) ∧ Nat.Prime p ∧
        (p : Int) ≤ (if 2 < (7 : Int) then 7 else 137) ∧
        (∀ q : Nat, Nat.Prime q → p < q → ¬((q : Int) < (if 2 < (7 : Int) then 7 else 137) + 1)) ∧
        ((7 : Int) = 7 → p = 7) ∧ ((7 : Int) = 10 → p = 7) ∧ ((7 : Int) ≤ 2 → p = 137) ∧
        table7.buckets.length = p ∧ ∀ c ∈ table7.buckets, c = [] :=
  ⟨hashmap_new_seven,
    hashmap_new_num_buckets (some .default_int) (some .default_int) 7 0 true table7
      hashmap_new_seven⟩


/-! ## Integer keys -/

theorem hashmap_get_eq_chain_get (mem : memory) (t : hashmap) (key : ptr) :
    hashmap_get mem (some t) key = chain_get (t.cmp_func.call mem) key (t.chain mem key) := by
  unfold hashmap_get chain_get find_pair hashmap.chain hashmap.index
  simp only []
  split <;> rename_i h <;> simp only [Prod.mk.injEq] at h <;> obtain ⟨h1, _, h3⟩ := h
  · rw [h1, h3]
  · rw [h1]

theorem chain_get_of_no_match (cmp : ptr → ptr → Int) (key : ptr) (chain : List pair)
    (h : ∀ p ∈ chain, cmp p.key key ≠ 0) : chain_get cmp key chain = 0 := by
  unfold chain_get
  rw [find_pair_walk_of_no_match cmp key chain h]

theorem chain_get_of_match (cmp : ptr → ptr → Int) (key : ptr) (a : List pair) (p : pair)
    (b : List pair) (ha : ∀ q ∈ a, cmp q.key key ≠ 0) (hp : cmp p.key key = 0) :
    chain_get cmp key (a ++ p :: b) = p.value := by
  unfold chain_get
  rw [find_pair_walk_of_match cmp key a p b ha hp]
  simp only [Nat.zero_add]
  rw [getElem?_append_cons_length]

/-- A node that does not match the key, added at the end of a chain, does not change the
lookup. -/
theorem chain_get_append (cmp : ptr → ptr → Int) (key : ptr) (chain : List pair) (n : pair)
    (hn : cmp n.key key ≠ 0) : chain_get cmp key (chain ++ [n]) = chain_get cmp key chain := by
  rcases chain_split cmp key chain with hno | ⟨a, p, b, rfl, ha, hp⟩
  · rw [chain_get_of_no_match cmp key chain hno, chain_get_of_no_match]
    intro q hq
    rcases List.mem_append.mp hq with h | h
    · exact hno q h
    · rw [List.mem_singleton.mp h]
      exact hn
  · rw [List.append_assoc, List.cons_append, chain_get_of_match cmp key a p _ ha hp,
      chain_get_of_match cmp key a p b ha hp]

/-- A new value in a node that does not match the key does not change the lookup. -/
theorem chain_get_update (cmp : ptr → ptr → Int) (key : ptr) (a : List pair) (p : pair)
    (b : List pair) (v : ptr) (hp : cmp p.key key ≠ 0) :
    chain_get cmp key (a ++ { p with value := v } :: b) = chain_get cmp key (a ++ p :: b) := by
  rcases chain_split cmp key a with hno | ⟨a1, m, a2, rfl, ha1, hm⟩
  · rcases chain_split cmp key b with hnob | ⟨b1, m, b2, rfl, hb1, hm⟩
    · rw [chain_get_of_no_match, chain_get_of_no_match]
      · intro q hq
        rcases List.mem_append.mp hq with h | h
        · exact hno q h
        · rcases List.mem_cons.mp h with rfl | h
          · exact hp
          · exact hnob q h
      · intro q hq
        rcases List.mem_append.mp hq with h | h
        · exact hno q h
        · rcases List.mem_cons.mp h with rfl | h
          · exact hp
          · exact hnob q h
    · have e1 : a ++ { p with value := v } :: (b1 ++ m :: b2) =
          (a ++ { p with value := v } :: b1) ++ m :: b2 := by simp
      have e2 : a ++ p :: (b1 ++ m :: b2) = (a ++ p :: b1) ++ m :: b2 := by simp
      rw [e1, e2, chain_get_of_match cmp key _ m b2 _ hm, chain_get_of_match cmp key _ m b2 _ hm]
      · intro q hq
        rcases List.mem_append.mp hq with h | h
        · exact hno q h
        · rcases List.mem_cons.mp h with rfl | h
          · exact hp
          · exact hb1 q h
      · intro q hq
        rcases List.mem_append.mp hq with h | h
        · exact hno q h
        · rcases List.mem_cons.mp h with rfl | h
          · exact hp
          · exact hb1 q h
  · rw [List.append_assoc, List.append_assoc, List.cons_append, List.cons_append,
      chain_get_of_match cmp key a1 m _ ha1 hm, chain_get_of_match cmp key a1 m _ ha1 hm]


theorem to_int_range (x : Int) : -2 ^ 31 ≤ to_int x ∧ to_int x < 2 ^ 31 := by
  unfold to_int
  simp only []
  split <;> constructor <;> omega

theorem v2i_i2v (i : Int) (h1 : -2 ^ 31 ≤ i) (h2 : i < 2 ^ 31) : v2i (i2v i) = i := by
  unfold v2i i2v to_int
  simp only []
  rw [Int.toNat_of_nonneg (by omega)]
  split <;> omega

theorem int_cmp_eq_zero_iff (a b : ptr) :
    hashmap_default_int_cmp_func a b = 0 ↔ v2i a = v2i b := by
  have ha := to_int_range (a : Int)
  have hb := to_int_range (b : Int)
  unfold hashmap_default_int_cmp_func
  unfold v2i at *
  generalize to_int (a : Int) = x at *
  generalize to_int (b : Int) = y at *
  unfold to_int
  simp only []
  constructor
  · intro h
    split at h <;> omega
  · intro h
    subst h
    simp


theorem chain_with_buckets_other (mem : memory) (t : hashmap) (i : Nat) (key : ptr)
    (c : List pair) (h : i ≠ t.index mem key) :
    hashmap.chain mem { t with buckets := t.buckets.set i c } key = t.chain mem key := by
  unfold hashmap.chain
  rw [index_with_buckets]
  exact getD_set_other _ _ _ h c

theorem chain_with_buckets_same (mem : memory) (t : hashmap) (hwf : t.wf) (k key : ptr)
    (c : List pair) (h : t.index mem k = t.index mem key) :
    hashmap.chain mem { t with buckets := t.buckets.set (t.index mem k) c } key = c := by
  rw [h]
  exact chain_with_buckets_self mem t hwf key c

theorem chain_eq_of_index_eq (mem : memory) (t : hashmap) (k key : ptr)
    (h : t.index mem k = t.index mem key) : t.chain mem k = t.chain mem key := by
  unfold hashmap.chain
  rw [h]

theorem wf_with_buckets (t : hashmap) (hwf : t.wf) (i : Nat) (c : List pair) :
    hashmap.wf { t with buckets := t.buckets.set i c } := by
  obtain ⟨h1, h2, h3⟩ := hwf
  exact ⟨h1, h2, by simpa using h3⟩

/-- One `hashmap_set` on a table with the integer comparator, seen through `hashmap_get`: the
key set now has the new value and every other integer key has the value it had. -/
theorem get_set_int (mem : memory) (malloc_ok : Bool) (t : hashmap) (k : Int) (v : ptr)
    (hwf : t.wf) (hcmp : t.cmp_func = cmp_fn.default_int) (hk1 : -2 ^ 31 ≤ k) (hk2 : k < 2 ^ 31)
    (hret : (hashmap_set mem malloc_ok (some t) (i2v k) v).1 = 0) :
    ∃ t1, (hashmap_set mem malloc_ok (some t) (i2v k) v).2 = some t1 ∧ t1.wf ∧
      t1.cmp_func = cmp_fn.default_int ∧
      ∀ k1 : Int, -2 ^ 31 ≤ k1 → k1 < 2 ^ 31 →
        hashmap_get mem (some t1) (i2v k1) =
          if k = k1 then v else hashmap_get mem (some t) (i2v k1) := by
  have hcall : ∀ a b, t.cmp_func.call mem a b = 0 ↔ v2i a = v2i b := by
    intro a b
    rw [hcmp]
    exact int_cmp_eq_zero_iff a b
  rcases chain_split (t.cmp_func.call mem) (i2v k) (t.chain mem (i2v k)) with
    hno | ⟨a, p, b, hc, ha, hp⟩
  · cases malloc_ok with
    | false =>
      rw [hashmap_set_of_no_match_fail mem t _ v hno] at hret
      simp [ENOMEM] at hret
    | true =>
      rw [hashmap_set_of_no_match mem t _ v hno]
      refine ⟨_, rfl, wf_with_buckets t hwf _ _, hcmp, ?_⟩
      intro k1 h1 h2
      rw [hashmap_get_eq_chain_get, hashmap_get_eq_chain_get]
      by_cases hkk : k = k1
      · subst hkk
        rw [if_pos rfl, chain_with_buckets_self mem t hwf]
        exact chain_get_of_match _ _ _ _ [] hno ((hcall _ _).mpr rfl)
      · rw [if_neg hkk]
        by_cases hidx : t.index mem (i2v k) = t.index mem (i2v k1)
        · rw [chain_with_buckets_same mem t hwf _ _ _ hidx,
            chain_eq_of_index_eq mem t _ _ hidx]
          apply chain_get_append
          intro h0
          have := (hcall _ _).mp h0
          rw [v2i_i2v k hk1 hk2, v2i_i2v k1 h1 h2] at this
          exact hkk this
        · rw [chain_with_buckets_other mem t _ _ _ hidx]
  · rw [hashmap_set_of_match mem malloc_ok t _ v a p b hc ha hp]
    refine ⟨_, rfl, wf_with_buckets t hwf _ _, hcmp, ?_⟩
    intro k1 h1 h2
    rw [hashmap_get_eq_chain_get, hashmap_get_eq_chain_get]
    by_cases hkk : k = k1
    · subst hkk
      rw [if_pos rfl, chain_with_buckets_self mem t hwf]
      exact chain_get_of_match _ _ a { p with value := v } b ha hp
    · rw [if_neg hkk]
      by_cases hidx : t.index mem (i2v k) = t.index mem (i2v k1)
      · rw [chain_with_buckets_same mem t hwf _ _ _ hidx,
          ← chain_eq_of_index_eq mem t _ _ hidx, hc]
        apply chain_get_update
        intro h0
        have e1 := (hcall _ _).mp h0
        have e2 := (hcall _ _).mp hp
        rw [v2i_i2v k1 h1 h2] at e1
        rw [v2i_i2v k hk1 hk2] at e2
        exact hkk (e2.symm.trans e1)
      · rw [chain_with_buckets_other mem t _ _ _ hidx]


theorem set_all_get (mem : memory) (ops : List (Bool × Int × ptr))
    (hops : ∀ o ∈ ops, -2 ^ 31 ≤ o.2.1 ∧ o.2.1 < 2 ^ 31) (k : Int) (hk1 : -2 ^ 31 ≤ k)
    (hk2 : k < 2 ^ 31) (t : hashmap) (hwf : t.wf) (hcmp : t.cmp_func = cmp_fn.default_int)
    (hall : (set_all mem (some t) ops).1 = true) :
    hashmap_get mem (set_all mem (some t) ops).2 (i2v k) =
      match (ops.map Prod.snd).reverse.find? (fun kv => decide (kv.1 = k)) with
      | some kv => kv.2
      | none => hashmap_get mem (some t) (i2v k) := by
  induction ops generalizing t with
  | nil => simp [set_all]
  | cons o rest ih =>
    obtain ⟨ok, k0, v0⟩ := o
    have hr := hops (ok, k0, v0) (List.mem_cons_self _ _)
    simp only [set_all, Bool.and_eq_true, decide_eq_true_eq] at hall ⊢
    obtain ⟨t1, e1, hwf1, hcmp1, hget⟩ := get_set_int mem ok t k0 v0 hwf hcmp hr.1 hr.2 hall.1
    rw [e1] at hall ⊢
    rw [ih (fun o ho => hops o (List.mem_cons_of_mem _ ho)) t1 hwf1 hcmp1 hall.2]
    simp only [List.map_cons, List.reverse_cons, List.find?_append]
    cases hf : List.find? (fun kv => decide (kv.1 = k)) (List.map Prod.snd rest).reverse with
    | some kv => simp
    | none =>
      rw [hget k hk1 hk2]
      by_cases hkk : k0 = k
      · simp [hkk]
      · simp [hkk]

theorem hashmap_new_wf (hash_func : hash_func_t) (cmp_func : cmp_func_t) (size : Int)
    (opts : Nat) (malloc_ok : Bool) (t : hashmap) (hsize : size < 2 ^ 31)
    (h : hashmap_new hash_func cmp_func size opts malloc_ok = some t) : t.wf := by
  obtain ⟨hnb, hb, _, _, _⟩ := hashmap_new_some hash_func cmp_func size opts malloc_ok t h
  have h2 : (2 : Int) < (if size ≤ 2 then 137 else size) := by split <;> omega
  obtain ⟨p, hp1, hp2, hp3, _⟩ := get_max_prime_spec _ h2
  have hpos := hp2.pos
  have hle : (p : Int) < 2 ^ 31 := by
    split at hp3 <;> omega
  rw [hp1] at hnb
  refine ⟨by omega, by omega, ?_⟩
  rw [hb]
  simp

/-- C3: on a newly constructed table with the integer strategies, of any capacity, a sequence of
`hashmap_set` calls that all return 0 leaves `hashmap_get(t, k)` equal to the value of the last
pair of the sequence whose key is `k`, and to 0 if no pair has key `k`. -/
theorem hashmap_set_get_refines (mem : memory) (size : Int) (hsize : size < 2 ^ 31) (opts : Nat)
    (new_ok : Bool) (ops : List (Bool × Int × ptr))
    (hops : ∀ o ∈ ops, -2 ^ 31 ≤ o.2.1 ∧ o.2.1 < 2 ^ 31) (k : Int) (hk1 : -2 ^ 31 ≤ k)
    (hk2 : k < 2 ^ 31)
    (hall : (set_all mem
      (hashmap_new (some .default_int) (some .default_int) size opts new_ok) ops).1 = true) :
    hashmap_get mem
        (set_all mem (hashmap_new (some .default_int) (some .default_int) size opts new_ok)
          ops).2 (i2v k) =
      assoc_last (ops.map Prod.snd) k := by
  cases hnew : hashmap_new (some .default_int) (some .default_int) size opts new_ok with
  | none =>
    rw [hnew] at hall
    cases ops with
    | nil => rfl
    | cons o rest =>
      obtain ⟨ok, k0, v0⟩ := o
      simp [set_all, hashmap_set, EINVAL] at hall
  | some t =>
    rw [hnew] at hall
    have hwf := hashmap_new_wf _ _ size opts new_ok t hsize hnew
    obtain ⟨_, hb, _, hcf, _⟩ := hashmap_new_some _ _ size opts new_ok t hnew
    have hcmp : t.cmp_func = cmp_fn.default_int := by
      simpa using hcf
    rw [set_all_get mem ops hops k hk1 hk2 t hwf hcmp hall]
    unfold assoc_last
    have hempty : hashmap_get mem (some t) (i2v k) = 0 := by
      apply hashmap_get_of_no_match
      intro p hp
      exfalso
      unfold hashmap.chain at hp
      rw [hb, List.getD_eq_getElem?_getD] at hp
      simp only [List.getElem?_replicate] at hp
      split at hp <;> simp at hp
    rw [hempty]


theorem hashmap_set_get_refines_witness :
    (set_all no_strings (hashmap_new (some .default_int) (some .default_int) 7 0 true)
        [(true, 1, 10), (true, 8, 20), (false, 1, 30), (true, -6, 40)]).1 = true ∧
      hashmap_get no_strings
          (set_all no_strings (hashmap_new (some .default_int) (some .default_int) 7 0 true)
            [(true, 1, 10), (true, 8, 20), (false, 1, 30), (true, -6, 40)]).2 (i2v 1) =
        assoc_last ([(true, 1, 10), (true, 8, 20), (false, 1, 30), (true, -6, 40)].map Prod.snd) 1 ∧
      assoc_last ([(true, 1, 10), (true, 8, 20), (false, 1, 30), (true, -6, 40)].map Prod.snd) 1 =
        30 :=
  ⟨by rw [hashmap_new_seven]; decide,
    hashmap_set_get_refines no_strings 7 (by decide) 0 true
      [(true, 1, 10), (true, 8, 20), (false, 1, 30), (true, -6, 40)] (by decide) 1 (by decide)
      (by decide) (by rw [hashmap_new_seven]; decide),
    by decide⟩

/-! ## Removal from a chain of several entries -/

theorem table_1_8_eq :
    table_1_8 = some { table7 with
      buckets := [[], [{ hash_code := 1, key := 1, value := 1 },
        { hash_code := 1, key := 8, value := 2 }], [], [], [], [], []] } := by
  unfold table_1_8
  rw [hashmap_new_seven]
  rfl

/-- C2, the code at the failing input: on a new integer table of capacity 7, after `set(1, 1)`,
`set(8, 2)` and `remove(8)`, the key 1, which was set and never removed, is not found any more:
`hashmap_get` returns 0 where it returned 1 before the removal of the other key. -/
theorem hashmap_remove_loses_other_keys :
    hashmap_get no_strings table_1_8 (i2v 1) = i2v 1 ∧
      (hashmap_remove no_strings table_1_8 (i2v 8)).1 = 0 ∧
      hashmap_get no_strings (hashmap_remove no_strings table_1_8 (i2v 8)).2 (i2v 1) = 0 := by
  rw [table_1_8_eq]
  decide

/-- C5, the code at the failing input: on a new integer table of capacity 7 holding the keys 1
and 8, both in bucket 1, `remove(1)` returns 0 and takes the number of entries from 2 to 0. -/
theorem hashmap_remove_count_two_to_zero :
    table_1_8.map hashmap.count = some 2 ∧
      (hashmap_remove no_strings table_1_8 (i2v 1)).1 = 0 ∧
      (hashmap_remove no_strings table_1_8 (i2v 1)).2.map hashmap.count = some 0 := by
  rw [table_1_8_eq]
  decide

/-! ## The hash code -/

theorem hashmap_hashcode_eq_call (mem : memory) (t : hashmap) (key : ptr) :
    hashmap_hashcode mem (some t) key = t.hash_func.call mem key := by
  unfold hashmap_hashcode
  simp

/-- C11, the code at the failing input: on a table with the integer hasher, the hash code of the
key `i2v(-1)` is the raw output `4294967295` of the hasher, which is `-1` when read as a signed
32-bit integer: it is neither below `2 ^ 31` nor the negation `1`. -/
theorem hashmap_hashcode_negative_key :
    hashmap_default_int_hash_func (i2v (-1)) = 4294967295 ∧
      hashmap_hashcode no_strings (some table7) (i2v (-1)) = 4294967295 ∧
      to_int (hashmap_hashcode no_strings (some table7) (i2v (-1)) : Nat) = -1 ∧
      ¬(hashmap_hashcode no_strings (some table7) (i2v (-1)) < 2 ^ 31) ∧
      hashmap_hashcode no_strings (some table7) (i2v (-1)) ≠ 1 := by
  have hraw : hashmap_default_int_hash_func (i2v (-1)) = 4294967295 := by decide
  have hcode : hashmap_hashcode no_strings (some table7) (i2v (-1)) = 4294967295 := by
    rw [hashmap_hashcode_eq_call]
    exact hraw
  rw [hcode]
  exact ⟨hraw, rfl, by decide, by decide, by decide⟩

/-! ## Allocation failure and null handles -/

/-- C12: when the key is not present and the allocation of the node fails, `hashmap_set` returns
`-ENOMEM` and the table is the one it was given, with no node linked; when the key is present,
`hashmap_set` returns 0 and its result does not depend on the outcome an allocation would
have. -/
theorem hashmap_set_alloc_failure (mem : memory) (t : hashmap) (k v : ptr) :
    ((find_pair mem t k).1 = none →
        hashmap_set mem false (some t) k v = (-ENOMEM, some t) ∧ -ENOMEM = -12) ∧
      ((find_pair mem t k).1 ≠ none →
        (hashmap_set mem false (some t) k v).1 = 0 ∧
          hashmap_set mem false (some t) k v = hashmap_set mem true (some t) k v) := by
  constructor
  · intro habs
    exact ⟨hashmap_set_of_no_match_fail mem t k v ((find_pair_none_iff mem t k).mp habs), rfl⟩
  · intro hpres
    rcases chain_split (t.cmp_func.call mem) k (t.chain mem k) with hno | ⟨a, p, b, hc, ha, hp⟩
    · exact absurd ((find_pair_none_iff mem t k).mpr hno) hpres
    · rw [hashmap_set_of_match mem false t k v a p b hc ha hp,
        hashmap_set_of_match mem true t k v a p b hc ha hp]
      exact ⟨rfl, rfl⟩

theorem hashmap_set_alloc_failure_witness :
    ((find_pair no_strings table3 7).1 = none ∧
        hashmap_set no_strings false (some table3) 7 5 = (-ENOMEM, some table3)) ∧
      ((find_pair no_strings table3 4).1 ≠ none ∧
        (hashmap_set no_strings false (some table3) 4 5).1 = 0 ∧
        hashmap_set no_strings false (some table3) 4 5 =
          hashmap_set no_strings true (some table3) 4 5) :=
  ⟨⟨by decide, ((hashmap_set_alloc_failure no_strings table3 7 5).1 (by decide)).1⟩,
    ⟨by decide, (hashmap_set_alloc_failure no_strings table3 4 5).2 (by decide)⟩⟩

/-- C13: on a null table handle, `hashmap_set`, `hashmap_remove` and `hashmap_clear` return
`-EINVAL`, which is -22, and `hashmap_get` returns 0, for every key, value, allocation outcome
and heap; the handle stays null.  A null handle holds no hasher and no comparator, and the
results are constants that no strategy and no string of the heap enters. -/
theorem hashmap_null_handle (mem : memory) (malloc_ok : Bool) (k v : ptr) :
    hashmap_set mem malloc_ok none k v = (-EINVAL, none) ∧
      hashmap_remove mem none k = (-EINVAL, none) ∧
      hashmap_clear none = (-EINVAL, none) ∧
      hashmap_get mem none k = 0 ∧ -EINVAL = -22 := by
  refine ⟨rfl, rfl, rfl, rfl, rfl⟩

/-! ## The integer comparator -/

/-- C15: for all 32-bit integers `a` and `b`, the integer comparator, whose subtraction wraps
modulo `2 ^ 32`, returns 0 on `(i2v(a), i2v(b))` exactly when `a = b`. -/
theorem hashmap_default_int_cmp_func_zero_iff (a b : Int) (ha1 : -2 ^ 31 ≤ a) (ha2 : a < 2 ^ 31)
    (hb1 : -2 ^ 31 ≤ b) (hb2 : b < 2 ^ 31) :
    hashmap_default_int_cmp_func (i2v a) (i2v b) = 0 ↔ a = b := by
  rw [int_cmp_eq_zero_iff, v2i_i2v a ha1 ha2, v2i_i2v b hb1 hb2]

theorem hashmap_default_int_cmp_func_zero_iff_witness :
    (hashmap_default_int_cmp_func (i2v (-2147483648)) (i2v 2147483647) = 0 ↔
        (-2147483648 : Int) = 2147483647) ∧
      hashmap_default_int_cmp_func (i2v (-2147483648)) (i2v 2147483647) = 1 :=
  ⟨hashmap_default_int_cmp_func_zero_iff (-2147483648) 2147483647 (by decide) (by decide)
      (by decide) (by decide),
    by decide⟩

/-! ## Appending, and what `find_pair` returns -/

/-- C16: a `hashmap_set` that returns 0 on a key that is not present changes exactly one chain,
the one at index `hashmap_hashcode(t, k) mod num_buckets`: it becomes the old chain followed by
one new entry holding the key and the value (so the old entries keep their order and the new one
is last), and every other chain is as before. -/
theorem hashmap_set_appends (mem : memory) (malloc_ok : Bool) (t : hashmap) (k v : ptr)
    (hwf : t.wf) (habs : (find_pair mem t k).1 = none)
    (hret : (hashmap_set mem malloc_ok (some t) k v).1 = 0) :
    ∃ t1 e, (hashmap_set mem malloc_ok (some t) k v).2 = some t1 ∧
      e.key = k ∧ e.value = v ∧
      e.hash_code = hashmap_hashcode mem (some t) k % t.num_buckets.toNat ∧
      t1.buckets.length = t.buckets.length ∧
      t1.buckets.getD (hashmap_hashcode mem (some t) k % t.num_buckets.toNat) [] =
        t.buckets.getD (hashmap_hashcode mem (some t) k % t.num_buckets.toNat) [] ++ [e] ∧
      (∀ b, b ≠ hashmap_hashcode mem (some t) k % t.num_buckets.toNat →
        t1.buckets.getD b [] = t.buckets.getD b []) ∧
      t1.num_buckets = t.num_buckets := by
  have hno := (find_pair_none_iff mem t k).mp habs
  have hidx : t.index mem k = hashmap_hashcode mem (some t) k % t.num_buckets.toNat := by
    unfold hashmap.index
    rw [to_unsigned_of_wf t hwf]
  have hlt := index_lt mem t hwf k
  cases malloc_ok with
  | false =>
    rw [hashmap_set_of_no_match_fail mem t k v hno] at hret
    simp [ENOMEM] at hret
  | true =>
    rw [hashmap_set_of_no_match mem t k v hno, ← hidx]
    refine ⟨_, { hash_code := t.index mem k, key := k, value := v }, rfl, rfl, rfl, rfl, ?_, ?_,
      ?_, rfl⟩
    · simp
    · simp only []
      rw [getD_set_self _ _ hlt]
      rfl
    · intro b hb
      simp only []
      rw [getD_set_other _ _ _ (Ne.symm hb)]

theorem hashmap_set_appends_witness :
    table3.wf ∧ (find_pair no_strings table3 7).1 = none ∧
      ∃ t1 e, (hashmap_set no_strings true (some table3) 7 5).2 = some t1 ∧
        e.key = 7 ∧ e.value = 5 ∧
        e.hash_code = hashmap_hashcode no_strings (some table3) 7 % table3.num_buckets.toNat ∧
        t1.buckets.length = table3.buckets.length ∧
        t1.buckets.getD (hashmap_hashcode no_strings (some table3) 7 % table3.num_buckets.toNat)
            [] =
          table3.buckets.getD
            (hashmap_hashcode no_strings (some table3) 7 % table3.num_buckets.toNat) [] ++ [e] ∧
        (∀ b, b ≠ hashmap_hashcode no_strings (some table3) 7 % table3.num_buckets.toNat →
          t1.buckets.getD b [] = table3.buckets.getD b []) ∧
        t1.num_buckets = table3.num_buckets :=
  ⟨by decide, by decide,
    hashmap_set_appends no_strings true table3 7 5 (by decide) (by decide) (by decide)⟩

/-- C17, the claim at a concrete input: in the table of three buckets that holds key 4 in
bucket 1, `find_pair` on key 7 (also bucket 1) finds no match, and `*prev` is not null: it is
the node at position 0, the last of the chain. -/
theorem find_pair_prev_on_miss :
    (find_pair no_strings table3 7).1 = none ∧ (find_pair no_strings table3 7).2.1 = some 0 ∧
      ¬((find_pair no_strings table3 7).1 = none → (find_pair no_strings table3 7).2.1 = none) := by
  decide

/-- C17, amended: `find_pair` always writes the bucket index `hashmap_hashcode(t, key) mod
num_buckets` to `*hash_code`.  It returns the first node of that chain whose key compares equal,
and then `*prev` is the node just before it, null when the match is the head.  It returns null
when no node of the chain compares equal, and then `*prev` is the last node of the chain, null
only when the chain is empty. -/
theorem find_pair_spec (mem : memory) (t : hashmap) (key : ptr) :
    (find_pair mem t key).2.2 =
        hashmap_hashcode mem (some t) key % to_unsigned t.num_buckets ∧
      (∀ i, (find_pair mem t key).1 = some i →
        (∃ p, (t.buckets.getD (find_pair mem t key).2.2 [])[i]? = some p ∧
          t.cmp_func.call mem p.key key = 0) ∧
        (∀ j p, j < i → (t.buckets.getD (find_pair mem t key).2.2 [])[j]? = some p →
          t.cmp_func.call mem p.key key ≠ 0) ∧
        (find_pair mem t key).2.1 = if i = 0 then none else some (i - 1)) ∧
      ((find_pair mem t key).1 = none →
        (∀ p ∈ t.buckets.getD (find_pair mem t key).2.2 [], t.cmp_func.call mem p.key key ≠ 0) ∧
        (find_pair mem t key).2.1 =
          if t.buckets.getD (find_pair mem t key).2.2 [] = [] then none
          else some ((t.buckets.getD (find_pair mem t key).2.2 []).length - 1)) := by
  have hidx : (find_pair mem t key).2.2 = t.index mem key := rfl
  refine ⟨rfl, ?_, ?_⟩
  · intro i hi
    obtain ⟨a, p, b, hc, hlen, ha, hp⟩ := find_pair_some mem t key i hi
    have hc1 : t.buckets.getD (t.index mem key) [] = a ++ p :: b := hc
    rw [hidx, hc1]
    refine ⟨⟨p, ?_, hp⟩, ?_, ?_⟩
    · rw [← hlen]
      exact getElem?_append_cons_length a p b
    · intro j q hj hq
      rw [List.getElem?_append_left (by omega)] at hq
      exact ha q (List.getElem?_mem hq)
    · rw [find_pair_of_match mem t key a p b hc ha hp]
      simp only []
      subst hlen
      cases a with
      | nil => simp
      | cons q r => simp
  · intro habs
    have hno := (find_pair_none_iff mem t key).mp habs
    rw [hidx]
    refine ⟨hno, ?_⟩
    rw [find_pair_of_no_match mem t key hno]
    rfl

/-- C18: after `hashmap_remove` has returned 0 on a present key, the bucket head at index
`hashmap_hashcode(t, k) mod num_buckets` is null wherever the key was in its chain, so that no
key of that bucket is found by `hashmap_get` any more, and every other bucket is as before. -/
theorem hashmap_remove_empties_bucket (mem : memory) (t : hashmap) (k : ptr) (hwf : t.wf)
    (hpres : (find_pair mem t k).1 ≠ none) :
    ∃ t1, hashmap_remove mem (some t) k = (0, some t1) ∧
      t1.buckets.length = t.buckets.length ∧
      t1.buckets[hashmap_hashcode mem (some t) k % t.num_buckets.toNat]? = some [] ∧
      (∀ k1, hashmap_hashcode mem (some t) k1 % t.num_buckets.toNat =
          hashmap_hashcode mem (some t) k % t.num_buckets.toNat →
        hashmap_get mem (some t1) k1 = 0) ∧
      (∀ b, b ≠ hashmap_hashcode mem (some t) k % t.num_buckets.toNat →
        t1.buckets[b]? = t.buckets[b]?) := by
  have hidx : ∀ k1, t.index mem k1 = hashmap_hashcode mem (some t) k1 % t.num_buckets.toNat := by
    intro k1
    unfold hashmap.index
    rw [to_unsigned_of_wf t hwf]
  have hlt := index_lt mem t hwf k
  rcases chain_split (t.cmp_func.call mem) k (t.chain mem k) with hno | ⟨a, p, b, hc, ha, hp⟩
  · exact absurd ((find_pair_none_iff mem t k).mpr hno) hpres
  · refine ⟨_, hashmap_remove_of_match mem t k a p b hc ha hp, by simp, ?_, ?_, ?_⟩
    · rw [← hidx k]
      simp [List.getElem?_set, hlt]
    · intro k1 h1
      rw [← hidx k1, ← hidx k] at h1
      apply hashmap_get_of_no_match
      rw [chain_with_buckets_same mem t hwf k k1 [] h1.symm]
      simp
    · intro c hc1
      rw [← hidx k] at hc1
      simp [List.getElem?_set, Ne.symm hc1]

theorem hashmap_remove_empties_bucket_witness :
    (find_pair no_strings table7_1_8 (i2v 8)).1 ≠ none ∧
      ∃ t1, hashmap_remove no_strings (some table7_1_8) (i2v 8) = (0, some t1) ∧
        t1.buckets.length = table7_1_8.buckets.length ∧
        t1.buckets[hashmap_hashcode no_strings (some table7_1_8) (i2v 8) %
          table7_1_8.num_buckets.toNat]? = some [] ∧
        (∀ k1, hashmap_hashcode no_strings (some table7_1_8) k1 % table7_1_8.num_buckets.toNat =
            hashmap_hashcode no_strings (some table7_1_8) (i2v 8) %
              table7_1_8.num_buckets.toNat →
          hashmap_get no_strings (some t1) k1 = 0) ∧
        (∀ b, b ≠ hashmap_hashcode no_strings (some table7_1_8) (i2v 8) %
            table7_1_8.num_buckets.toNat →
          t1.buckets[b]? = table7_1_8.buckets[b]?) :=
  ⟨by decide, hashmap_remove_empties_bucket no_strings table7_1_8 (i2v 8) (by decide) (by decide)⟩

theorem find_pair_spec_witness :
    (find_pair no_strings table7_1_8 (i2v 8)).1 = some 1 ∧
      (find_pair no_strings table7_1_8 (i2v 8)).2.1 = (if 1 = 0 then none else some (1 - 1)) ∧
      (find_pair no_strings table7_1_8 (i2v 15)).1 = none ∧
      (find_pair no_strings table7_1_8 (i2v 15)).2.1 =
        (if table7_1_8.buckets.getD (find_pair no_strings table7_1_8 (i2v 15)).2.2 [] = [] then none
        else some ((table7_1_8.buckets.getD
          (find_pair no_strings table7_1_8 (i2v 15)).2.2 []).length - 1)) :=
  ⟨by decide, ((find_pair_spec no_strings table7_1_8 (i2v 8)).2.1 1 (by decide)).2.2,
    by decide, ((find_pair_spec no_strings table7_1_8 (i2v 15)).2.2 (by decide)).2⟩

/-! ## The string hasher -/

theorem sampled_index_iff (i : Nat) : sampled_index i = true ↔ i = 0 ∨ ∃ e, i = 2 ^ e := by
  unfold sampled_index
  simp only [Bool.or_eq_true, beq_iff_eq, List.any_eq_true, List.mem_range]
  constructor
  · rintro (h | ⟨e, _, he⟩)
    · exact Or.inl h
    · exact Or.inr ⟨e, he⟩
  · rintro (h | ⟨e, he⟩)
    · exact Or.inl h
    · refine Or.inr ⟨e, ?_, he⟩
      have := Nat.lt_two_pow e
      omega

theorem exp_inv_cond (i exp : Nat) (hinv : exp_inv i exp) (hi : i < 2 ^ 64) :
    (0 = i ∨ i = exp) ↔ sampled_index i = true := by
  rw [sampled_index_iff]
  rcases hinv with ⟨rfl, rfl⟩ | ⟨hpos, e, he, rfl, hle, hlow⟩ | ⟨rfl, hbig⟩
  · simp
  · constructor
    · rintro (h | h)
      · omega
      · exact Or.inr ⟨e, h⟩
    · rintro (h | ⟨f, hf⟩)
      · omega
      · right
        subst hf
        have hfe : f ≤ e := (Nat.pow_le_pow_iff_right (by norm_num)).mp hle
        rcases Nat.eq_or_lt_of_le hfe with rfl | hlt
        · rfl
        · exfalso
          rcases hlow with h0 | h1
          · omega
          · have := (Nat.pow_lt_pow_iff_right (by norm_num)).mp h1
            omega
  · constructor
    · rintro (h | h) <;> omega
    · rintro (h | ⟨f, hf⟩)
      · omega
      · exfalso
        subst hf
        have h63 : 63 < f := (Nat.pow_lt_pow_iff_right (by norm_num)).mp hbig
        have h64 : f < 64 := (Nat.pow_lt_pow_iff_right (by norm_num)).mp hi
        omega

theorem exp_inv_sampled (i exp : Nat) (hinv : exp_inv i exp) (h : 0 = i ∨ i = exp) :
    exp_inv (i + 1) (if i ≠ 0 then (exp <<< 1) % 2 ^ 64 else exp) := by
  rcases hinv with ⟨rfl, rfl⟩ | ⟨hpos, e, he, rfl, hle, hlow⟩ | ⟨rfl, hbig⟩
  · exact Or.inr (Or.inl ⟨by omega, 0, by omega, by simp, by simp, Or.inl rfl⟩)
  · have hi : i = 2 ^ e := by
      rcases h with h | h
      · omega
      · exact h
    subst hi
    rw [if_pos (by omega), Nat.shiftLeft_eq, pow_one, ← pow_succ]
    rcases Nat.eq_or_lt_of_le he with rfl | hlt
    · exact Or.inr (Or.inr ⟨by norm_num, by norm_num⟩)
    · have hlt64 : 2 ^ (e + 1) < 2 ^ 64 := Nat.pow_lt_pow_right (by norm_num) (by omega)
      rw [Nat.mod_eq_of_lt hlt64]
      refine Or.inr (Or.inl ⟨by omega, e + 1, by omega, rfl, ?_, Or.inr ?_⟩)
      · rw [pow_succ]
        omega
      · simp
  · omega

theorem exp_inv_skipped (i exp : Nat) (hinv : exp_inv i exp) (h : ¬(0 = i ∨ i = exp)) :
    exp_inv (i + 1) exp := by
  rcases hinv with ⟨rfl, rfl⟩ | ⟨hpos, e, he, rfl, hle, hlow⟩ | ⟨rfl, hbig⟩
  · exact absurd (Or.inl rfl) h
  · have hne : i ≠ 2 ^ e := fun h1 => h (Or.inr h1)
    refine Or.inr (Or.inl ⟨by omega, e, he, rfl, by omega, ?_⟩)
    rcases hlow with h0 | h1
    · exact Or.inl h0
    · exact Or.inr (by omega)
  · exact Or.inr (Or.inr ⟨rfl, by omega⟩)

theorem str_hash_loop_eq (k : List Int) (i exp hash : Nat) (hinv : exp_inv i exp)
    (hlen : i + k.length ≤ 2 ^ 64) :
    str_hash_loop k i exp hash =
      ((List.range k.length).filter (fun j => sampled_index (i + j))).foldl
        (fun h j => to_unsigned (31 * (h : Int) + k.getD j 0)) hash := by
  induction k generalizing i exp hash with
  | nil => simp [str_hash_loop]
  | cons c k ih =>
    have hi : i < 2 ^ 64 := by
      simp only [List.length_cons] at hlen
      omega
    have hlen1 : i + 1 + k.length ≤ 2 ^ 64 := by
      simp only [List.length_cons] at hlen
      omega
    have hcond := exp_inv_cond i exp hinv hi
    have hfun : ((fun j => sampled_index (i + j)) ∘ Nat.succ) =
        fun j => sampled_index (i + 1 + j) := by
      funext j
      simp only [Function.comp, Nat.succ_eq_add_one]
      congr 1
      omega
    rw [List.length_cons, List.range_succ_eq_map, List.filter_cons, List.filter_map, hfun]
    by_cases h : 0 = i ∨ i = exp
    · rw [str_hash_loop, if_pos h, ih _ _ _ (exp_inv_sampled i exp hinv h) hlen1]
      have hs : sampled_index (i + 0) = true := hcond.mp h
      rw [if_pos hs, List.foldl_cons, List.foldl_map]
      simp
    · rw [str_hash_loop, if_neg h, ih _ _ _ (exp_inv_skipped i exp hinv h) hlen1]
      have hs : ¬sampled_index (i + 0) = true := fun hs => h (hcond.mpr hs)
      rw [if_neg hs, List.foldl_map]
      simp

theorem hashmap_default_str_hash_func_eq_fold (s : List Int) (hlen : s.length ≤ 2 ^ 64) :
    hashmap_default_str_hash_func s = str_hash_fold s := by
  unfold hashmap_default_str_hash_func str_hash_fold
  rw [str_hash_loop_eq s 0 1 0 (Or.inl ⟨rfl, rfl⟩) (by omega)]
  simp

theorem str_hash_fold_congr (s s2 : List Int) (hlen : s2.length = s.length)
    (hagree : ∀ i, sampled_index i = true → s2[i]? = s[i]?) :
    str_hash_fold s2 = str_hash_fold s := by
  unfold str_hash_fold
  rw [hlen]
  apply List.foldl_ext
  intro h i hi
  rw [List.mem_filter] at hi
  rw [List.getD_eq_getElem?_getD, List.getD_eq_getElem?_getD, hagree i hi.2]

/-- C14: for a NUL-terminated string `s` (shorter than the address space), the string hasher
returns the left fold of `h := 31 * h + s[i]` modulo `2 ^ 32`, from `h = 0`, taken in increasing
order over exactly the indices `i < length(s)` with `i = 0` or `i` a power of two; characters at
other indices do not enter, so two strings of the same length that agree at index 0 and at every
power-of-two index have the same hash. -/
theorem hashmap_default_str_hash_func_samples (s : List Int) (hlen : s.length ≤ 2 ^ 64) :
    hashmap_default_str_hash_func s =
        ((List.range s.length).filter sampled_index).foldl
          (fun h i => to_unsigned (31 * (h : Int) + s.getD i 0)) 0 ∧
      (∀ i, sampled_index i = true ↔ i = 0 ∨ ∃ e, i = 2 ^ e) ∧
      ∀ s2 : List Int, s2.length = s.length →
        (∀ i, (i = 0 ∨ ∃ e, i = 2 ^ e) → s2[i]? = s[i]?) →
        hashmap_default_str_hash_func s2 = hashmap_default_str_hash_func s := by
  refine ⟨hashmap_default_str_hash_func_eq_fold s hlen, sampled_index_iff, ?_⟩
  intro s2 h2 hagree
  rw [hashmap_default_str_hash_func_eq_fold s hlen,
    hashmap_default_str_hash_func_eq_fold s2 (by omega)]
  exact str_hash_fold_congr s s2 h2 (fun i hi => hagree i ((sampled_index_iff i).mp hi))

theorem hashmap_default_str_hash_func_samples_witness :
    hashmap_default_str_hash_func [97, 98, 99, 100, 101] =
        ((List.range [97, 98, 99, 100, 101].length).filter sampled_index).foldl
          (fun h i => to_unsigned (31 * (h : Int) + [97, 98, 99, 100, 101].getD i 0)) 0 ∧
      hashmap_default_str_hash_func [97, 98, 99, 100, 101] = 2987075 ∧
      hashmap_default_str_hash_func [97, 98, 99, 120, 101] = 2987075 :=
  ⟨(hashmap_default_str_hash_func_samples [97, 98, 99, 100, 101] (by decide)).1, by decide,
    by decide⟩

/-! ## Invariants of the reachable tables -/

theorem inv_with_buckets (mem : memory) (t : hashmap) (hwf : t.wf) (hpl : t.placed mem)
    (hun : t.unique mem) (idx : Nat) (c1 : List pair)
    (h1 : ∀ e ∈ c1, t.index mem e.key = idx ∧ e.hash_code = idx)
    (h2 : c1.Pairwise (fun e1 e2 => t.cmp_func.call mem e1.key e2.key ≠ 0)) :
    hashmap.wf { t with buckets := t.buckets.set idx c1 } ∧
      hashmap.placed mem { t with buckets := t.buckets.set idx c1 } ∧
      hashmap.unique mem { t with buckets := t.buckets.set idx c1 } := by
  refine ⟨wf_with_buckets t hwf idx c1, ?_, ?_⟩
  · intro i c hc e he
    simp only [List.getElem?_set] at hc
    rw [index_with_buckets]
    split at hc
    · rename_i hidx
      subst hidx
      split at hc
      · simp only [Option.some.injEq] at hc
        subst hc
        exact h1 e he
      · simp at hc
    · exact hpl i c hc e he
  · intro c hc
    rcases List.mem_or_eq_of_mem_set hc with h | h
    · exact hun c h
    · rw [h]
      exact h2

theorem chain_mem_buckets (mem : memory) (t : hashmap) (key : ptr) (h : t.chain mem key ≠ []) :
    t.buckets[t.index mem key]? = some (t.chain mem key) := by
  have hlt := index_lt_of_chain mem t key h
  unfold hashmap.chain
  rw [List.getD_eq_getElem?_getD, List.getElem?_eq_getElem hlt]
  rfl

theorem chain_placed (mem : memory) (t : hashmap) (hpl : t.placed mem) (key : ptr) :
    ∀ e ∈ t.chain mem key, t.index mem e.key = t.index mem key ∧ e.hash_code = t.index mem key := by
  intro e he
  have hne : t.chain mem key ≠ [] := List.ne_nil_of_mem he
  exact hpl _ _ (chain_mem_buckets mem t key hne) e he

theorem chain_unique (mem : memory) (t : hashmap) (hun : t.unique mem) (key : ptr) :
    (t.chain mem key).Pairwise (fun e1 e2 => t.cmp_func.call mem e1.key e2.key ≠ 0) := by
  by_cases hne : t.chain mem key = []
  · rw [hne]
    exact List.Pairwise.nil
  · exact hun _ (List.getElem?_mem (chain_mem_buckets mem t key hne))

theorem inv_set (mem : memory) (malloc_ok : Bool) (t : hashmap) (k v : ptr) (hwf : t.wf)
    (hpl : t.placed mem) (hun : t.unique mem) :
    ∃ t1, (hashmap_set mem malloc_ok (some t) k v).2 = some t1 ∧ t1.wf ∧ t1.placed mem ∧
      t1.unique mem ∧ t1.cmp_func = t.cmp_func ∧ t1.hash_func = t.hash_func ∧
      t1.num_buckets = t.num_buckets := by
  rcases chain_split (t.cmp_func.call mem) k (t.chain mem k) with hno | ⟨a, p, b, hc, ha, hp⟩
  · cases malloc_ok with
    | false =>
      rw [hashmap_set_of_no_match_fail mem t k v hno]
      exact ⟨t, rfl, hwf, hpl, hun, rfl, rfl, rfl⟩
    | true =>
      rw [hashmap_set_of_no_match mem t k v hno]
      obtain ⟨i1, i2, i3⟩ := inv_with_buckets mem t hwf hpl hun (t.index mem k)
        (t.chain mem k ++ [{ hash_code := t.index mem k, key := k, value := v }])
        (by
          intro e he
          rcases List.mem_append.mp he with h | h
          · exact chain_placed mem t hpl k e h
          · rw [List.mem_singleton.mp h]
            exact ⟨rfl, rfl⟩)
        (by
          rw [List.pairwise_append]
          refine ⟨chain_unique mem t hun k, List.pairwise_singleton _ _, ?_⟩
          intro e he n hn
          rw [List.mem_singleton.mp hn]
          exact hno e he)
      exact ⟨_, rfl, i1, i2, i3, rfl, rfl, rfl⟩
  · rw [hashmap_set_of_match mem malloc_ok t k v a p b hc ha hp]
    have hpl1 := chain_placed mem t hpl k
    have hun1 := chain_unique mem t hun k
    rw [hc] at hpl1 hun1
    obtain ⟨i1, i2, i3⟩ := inv_with_buckets mem t hwf hpl hun (t.index mem k)
      (a ++ { p with value := v } :: b)
      (by
        intro e he
        rcases List.mem_append.mp he with h | h
        · exact hpl1 e (List.mem_append_left _ h)
        · rcases List.mem_cons.mp h with h | h
          · rw [h]
            exact hpl1 p (List.mem_append_right _ (List.mem_cons_self _ _))
          · exact hpl1 e (List.mem_append_right _ (List.mem_cons_of_mem _ h)))
      (by
        rw [List.pairwise_append, List.pairwise_cons] at hun1 ⊢
        obtain ⟨u1, ⟨u2, u3⟩, u4⟩ := hun1
        refine ⟨u1, ⟨u2, u3⟩, ?_⟩
        intro e he n hn
        rcases List.mem_cons.mp hn with h | h
        · rw [h]
          exact u4 e he p (List.mem_cons_self _ _)
        · exact u4 e he n (List.mem_cons_of_mem _ h))
    exact ⟨_, rfl, i1, i2, i3, rfl, rfl, rfl⟩

theorem inv_remove (mem : memory) (t : hashmap) (k : ptr) (hwf : t.wf) (hpl : t.placed mem)
    (hun : t.unique mem) :
    ∃ t1, (hashmap_remove mem (some t) k).2 = some t1 ∧ t1.wf ∧ t1.placed mem ∧
      t1.unique mem ∧ t1.cmp_func = t.cmp_func ∧ t1.hash_func = t.hash_func ∧
      t1.num_buckets = t.num_buckets := by
  rcases chain_split (t.cmp_func.call mem) k (t.chain mem k) with hno | ⟨a, p, b, hc, ha, hp⟩
  · rw [hashmap_remove_of_no_match mem t k hno]
    exact ⟨t, rfl, hwf, hpl, hun, rfl, rfl, rfl⟩
  · rw [hashmap_remove_of_match mem t k a p b hc ha hp]
    obtain ⟨i1, i2, i3⟩ := inv_with_buckets mem t hwf hpl hun (t.index mem k) []
      (by simp) List.Pairwise.nil
    exact ⟨_, rfl, i1, i2, i3, rfl, rfl, rfl⟩

theorem inv_empty (mem : memory) (t : hashmap) (hwf : t.wf) :
    hashmap.wf { t with buckets := List.replicate t.num_buckets.toNat [] } ∧
      hashmap.placed mem { t with buckets := List.replicate t.num_buckets.toNat [] } ∧
      hashmap.unique mem { t with buckets := List.replicate t.num_buckets.toNat [] } := by
  obtain ⟨h1, h2, _⟩ := hwf
  refine ⟨⟨h1, h2, by simp⟩, ?_, ?_⟩
  · intro i c hc e he
    simp only [List.getElem?_replicate] at hc
    split at hc
    · simp only [Option.some.injEq] at hc
      subst hc
      simp at he
    · simp at hc
  · intro c hc
    rw [(List.mem_replicate.mp hc).2]
    exact List.Pairwise.nil

theorem inv_clear (mem : memory) (t : hashmap) (hwf : t.wf) :
    ∃ t1, (hashmap_clear (some t)).2 = some t1 ∧ t1.wf ∧ t1.placed mem ∧
      t1.unique mem ∧ t1.cmp_func = t.cmp_func ∧ t1.hash_func = t.hash_func ∧
      t1.num_buckets = t.num_buckets := by
  rw [hashmap_clear_eq t hwf]
  obtain ⟨i1, i2, i3⟩ := inv_empty mem t hwf
  exact ⟨_, rfl, i1, i2, i3, rfl, rfl, rfl⟩

theorem inv_run_ops (mem : memory) (ops : List table_op) (t : hashmap) (hwf : t.wf)
    (hpl : t.placed mem) (hun : t.unique mem) :
    ∃ t1, run_ops mem (some t) ops = some t1 ∧ t1.wf ∧ t1.placed mem ∧ t1.unique mem ∧
      t1.cmp_func = t.cmp_func ∧ t1.hash_func = t.hash_func ∧
      t1.num_buckets = t.num_buckets := by
  induction ops generalizing t with
  | nil => exact ⟨t, rfl, hwf, hpl, hun, rfl, rfl, rfl⟩
  | cons o rest ih =>
    have hstep : ∃ t1, apply_op mem (some t) o = some t1 ∧ t1.wf ∧ t1.placed mem ∧
        t1.unique mem ∧ t1.cmp_func = t.cmp_func ∧ t1.hash_func = t.hash_func ∧
        t1.num_buckets = t.num_buckets := by
      cases o with
      | set malloc_ok key value => exact inv_set mem malloc_ok t key value hwf hpl hun
      | remove key => exact inv_remove mem t key hwf hpl hun
      | clear => exact inv_clear mem t hwf
    obtain ⟨t1, e1, w1, p1, u1, c1, f1, n1⟩ := hstep
    obtain ⟨t2, e2, w2, p2, u2, c2, f2, n2⟩ := ih t1 w1 p1 u1
    refine ⟨t2, ?_, w2, p2, u2, c2.trans c1, f2.trans f1, n2.trans n1⟩
    show List.foldl (apply_op mem) (apply_op mem (some t) o) rest = some t2
    rw [e1]
    exact e2

theorem inv_new (mem : memory) (hash_func : hash_func_t) (cmp_func : cmp_func_t) (size : Int)
    (opts : Nat) (malloc_ok : Bool) (t : hashmap) (hsize : size < 2 ^ 31)
    (h : hashmap_new hash_func cmp_func size opts malloc_ok = some t) :
    t.wf ∧ t.placed mem ∧ t.unique mem := by
  have hwf := hashmap_new_wf hash_func cmp_func size opts malloc_ok t hsize h
  obtain ⟨_, hb, _, _, _⟩ := hashmap_new_some hash_func cmp_func size opts malloc_ok t h
  obtain ⟨_, i2, i3⟩ := inv_empty mem t hwf
  refine ⟨hwf, ?_, ?_⟩
  · intro i c hc e he
    rw [hb] at hc
    exact i2 i c hc e he
  · intro c hc
    rw [hb] at hc
    exact i3 c hc

/-- C19: in every table reached from a successful `hashmap_new` by a sequence of `hashmap_set`,
`hashmap_remove` and `hashmap_clear` calls, every entry of the chain of bucket `i` has a key with
`hashmap_hashcode(t, key) mod num_buckets = i`, a stored `hash_code` equal to `i`, and
`i < num_buckets`. -/
theorem bucket_placement_invariant (mem : memory) (hash_func : hash_func_t)
    (cmp_func : cmp_func_t) (size : Int) (opts : Nat) (malloc_ok : Bool) (t0 : hashmap)
    (hsize : size < 2 ^ 31)
    (hnew : hashmap_new hash_func cmp_func size opts malloc_ok = some t0)
    (ops : List table_op) :
    ∃ t, run_ops mem (some t0) ops = some t ∧
      ∀ i c, t.buckets[i]? = some c → ∀ e ∈ c,
        hashmap_hashcode mem (some t) e.key % t.num_buckets.toNat = i ∧ e.hash_code = i ∧
          (i : Int) < t.num_buckets := by
  obtain ⟨w0, p0, u0⟩ := inv_new mem hash_func cmp_func size opts malloc_ok t0 hsize hnew
  obtain ⟨t, hrun, hwf, hpl, _, _, _, _⟩ := inv_run_ops mem ops t0 w0 p0 u0
  refine ⟨t, hrun, ?_⟩
  intro i c hc e he
  obtain ⟨h1, h2⟩ := hpl i c hc e he
  have hidx : t.index mem e.key = hashmap_hashcode mem (some t) e.key % t.num_buckets.toNat := by
    unfold hashmap.index
    rw [to_unsigned_of_wf t hwf]
  refine ⟨hidx ▸ h1, h2, ?_⟩
  have hlt : i < t.buckets.length := by
    by_contra hge
    rw [List.getElem?_eq_none (by omega)] at hc
    simp at hc
  obtain ⟨_, _, hlen⟩ := hwf
  omega

theorem bucket_placement_invariant_witness :
    hashmap_new (some .default_int) (some .default_int) 7 0 true = some table7 ∧
      ∃ t, run_ops no_strings (some table7) sample_ops = some t ∧
        ∀ i c, t.buckets[i]? = some c → ∀ e ∈ c,
          hashmap_hashcode no_strings (some t) e.key % t.num_buckets.toNat = i ∧
            e.hash_code = i ∧ (i : Int) < t.num_buckets :=
  ⟨hashmap_new_seven,
    bucket_placement_invariant no_strings (some .default_int) (some .default_int) 7 0 true table7
      (by decide) hashmap_new_seven sample_ops⟩

theorem hashmap_new_seven_never_equal :
    hashmap_new (some .default_int) (some never_equal) 7 0 true = some table7_never_equal := by
  have h : (if (7 : Int) ≤ 2 then (137 : Int) else 7) = 7 := by decide
  unfold hashmap_new never_equal
  simp only [Bool.not_true, Bool.false_eq_true, if_false]
  rw [h, get_max_prime_seven]
  rfl

/-- C20, the claim at a concrete input: with the integer hasher and a comparator that never
returns 0, `set(1, 10)` then `set(1, 20)` on a new table of size 7 leaves two entries, both
with key 1, in bucket 1.  No entry of a chain compares equal to a later one, and yet the number
of entries, 2, is not the number of distinct keys stored, 1. -/
theorem key_stored_twice :
    run_ops no_strings (hashmap_new (some .default_int) (some never_equal) 7 0 true)
        [.set true 1 10, .set true 1 20] = some table7_twice ∧
      table7_twice.unique no_strings ∧ table7_twice.count = 2 ∧ table7_twice.keys = [1, 1] ∧
      table7_twice.keys.dedup.length = 1 ∧
      table7_twice.count ≠ table7_twice.keys.dedup.length := by
  rw [hashmap_new_seven_never_equal]
  refine ⟨rfl, ?_, by decide, by decide, by decide, by decide⟩
  unfold hashmap.unique
  decide

theorem keys_nodup (mem : memory) (t : hashmap) (hpl : t.placed mem) (hun : t.unique mem)
    (hrefl : ∀ k, t.cmp_func.call mem k k = 0) : t.keys.Nodup := by
  unfold hashmap.keys List.Nodup
  rw [List.pairwise_map, List.pairwise_flatten]
  constructor
  · intro c hc
    refine List.Pairwise.imp ?_ (hun c hc)
    intro e1 e2 hne heq
    apply hne
    rw [heq]
    exact hrefl _
  · rw [List.pairwise_iff_getElem]
    intro i j hi hj hij x hx y hy heq
    have h1 := (hpl i _ (List.getElem?_eq_getElem hi) x hx).1
    have h2 := (hpl j _ (List.getElem?_eq_getElem hj) y hy).1
    rw [heq] at h1
    omega

theorem count_eq_length_keys (t : hashmap) : t.count = t.keys.length := by
  unfold hashmap.count hashmap.keys
  rw [List.length_map, List.length_flatten]

/-- C20, amended: in every table reached from a successful `hashmap_new` by a sequence of
`hashmap_set`, `hashmap_remove` and `hashmap_clear` calls, no chain holds an entry whose key
compares equal to the key of a later entry of the chain; and when the comparator returns 0 on
`(k, k)` for every key `k`, the keys of the entries are pairwise different, so that the number of
entries is the number of distinct keys stored. -/
theorem key_uniqueness_invariant (mem : memory) (hash_func : hash_func_t)
    (cmp_func : cmp_func_t) (size : Int) (opts : Nat) (malloc_ok : Bool) (t0 : hashmap)
    (hsize : size < 2 ^ 31)
    (hnew : hashmap_new hash_func cmp_func size opts malloc_ok = some t0)
    (ops : List table_op) :
    ∃ t, run_ops mem (some t0) ops = some t ∧
      (∀ c ∈ t.buckets, c.Pairwise (fun e1 e2 => t.cmp_func.call mem e1.key e2.key ≠ 0)) ∧
      ((∀ k, t0.cmp_func.call mem k k = 0) →
        t.keys.Nodup ∧ t.count = t.keys.dedup.length) := by
  obtain ⟨w0, p0, u0⟩ := inv_new mem hash_func cmp_func size opts malloc_ok t0 hsize hnew
  obtain ⟨t, hrun, _, hpl, hun, hcmp, _, _⟩ := inv_run_ops mem ops t0 w0 p0 u0
  refine ⟨t, hrun, hun, ?_⟩
  intro hrefl
  have hnd := keys_nodup mem t hpl hun (by rw [hcmp]; exact hrefl)
  exact ⟨hnd, by rw [hnd.dedup, count_eq_length_keys]⟩

theorem key_uniqueness_invariant_witness :
    hashmap_new (some .default_int) (some .default_int) 7 0 true = some table7 ∧
      ∃ t, run_ops no_strings (some table7) sample_ops = some t ∧
        (∀ c ∈ t.buckets,
          c.Pairwise (fun e1 e2 => t.cmp_func.call no_strings e1.key e2.key ≠ 0)) ∧
        t.keys.Nodup ∧ t.count = t.keys.dedup.length :=
  ⟨hashmap_new_seven,
    (key_uniqueness_invariant no_strings (some .default_int) (some .default_int) 7 0 true table7
      (by decide) hashmap_new_seven sample_ops).imp
      (fun _ h => ⟨h.1, h.2.1, h.2.2 (fun k => (int_cmp_eq_zero_iff k k).mpr rfl)⟩)⟩

end Hashmap
